import Mathlib

/-!
Verification of the mescal Bencode codec (src/types.rs, src/decoder.rs,
src/encoder.rs) against its specification.

The byte stream is modelled as a `List Nat` (the program works on `u8`
values, all below 256; none of the definitions needs that upper bound, so
claims are stated over arbitrary `Nat` entries).  The Rust
`Peekable<Iter<u8>>` cursor becomes explicit state passing: every reader
takes the remaining byte list and returns the parsed result together with
the bytes left after it.  The mutually recursive readers take a fuel
argument so that the recursion is structural; the public `decode` entry
point supplies fuel that is amply sufficient (see the fuel lemmas below).
-/

set_option maxHeartbeats 1600000

namespace Mescal

/-! ## Marker constants (module `c` of the crate) -/

namespace c

def M_DICT : Nat := 0x64

def M_INT : Nat := 0x69

def M_LIST : Nat := 0x6C

def M_END : Nat := 0x65

def M_COLON : Nat := 0x3A

def M_0 : Nat := 0x30

def M_9 : Nat := 0x39

def M_DASH : Nat := 0x2D

end c

/-! ## Data model (src/types.rs) -/

/-- The error enum from src/types.rs.  Diagnostic payloads carrying only a
message (`FileRead`, `IntParseInt`) or a `Utf8Error` (`IntParseAscii`) are
not modelled; the offending byte of `UnrecognizedByte` is kept. -/
inductive BencodeError where
  | FileRead
  | UnrecognizedByte (b : Nat)
  | UnexpectedEndMarker
  | BytestreamEnded
  | IntParseAscii
  | IntParseInt
  | IntParseLeadingZero
  | IntParseNegativeZero
  | StrParseLeadingZero
  | StrLenInvalidByte
  | StrParse
  | DictKeyParse
deriving DecidableEq

/-- `struct ByteString { bytes: Vec<u8> }` -/
structure ByteString where
  bytes : List Nat
deriving DecidableEq

/-- The value model from src/types.rs.  A Rust `String` dict key is modelled
by its UTF-8 byte sequence (a `List Nat`). -/
inductive BencodeItem where
  | String : ByteString → BencodeItem
  | Int : Int → BencodeItem
  | List : List BencodeItem → BencodeItem
  | Dict : List (List Nat × BencodeItem) → BencodeItem

/-! ## UTF-8 validity (std::str::from_utf8) -/

/-- A UTF-8 continuation byte. -/
def isCont (b : Nat) : Bool := 0x80 ≤ b && b ≤ 0xBF

/-- Lower bound for the first continuation byte after lead byte `b` (the
tightened ranges rule out overlong forms, surrogates, and values above
U+10FFFF, exactly as `std::str::from_utf8` does). -/
def cont1Lo (b : Nat) : Nat :=
  if b = 0xE0 then 0xA0 else if b = 0xF0 then 0x90 else 0x80

/-- Upper bound for the first continuation byte after lead byte `b`. -/
def cont1Hi (b : Nat) : Nat :=
  if b = 0xED then 0x9F else if b = 0xF4 then 0x8F else 0xBF

/-- Length of the UTF-8 sequence introduced by lead byte `b` (0 for bytes
that can never start a sequence: stray continuations, C0/C1, F5 and up). -/
def seqLen (b : Nat) : Nat :=
  if b ≤ 0x7F then 1
  else if 0xC2 ≤ b && b ≤ 0xDF then 2
  else if 0xE0 ≤ b && b ≤ 0xEF then 3
  else if 0xF0 ≤ b && b ≤ 0xF4 then 4
  else 0

mutual

/-- Standard UTF-8 validity as checked by `std::str::from_utf8`: ASCII, or
2–4 byte sequences with the usual lead-byte ranges, no overlong forms, no
surrogates, nothing above U+10FFFF. -/
def validUtf8 : List Nat → Bool
  | [] => true
  | b :: rest =>
    if b ≤ 0x7F then validUtf8 rest
    else if seqLen b = 2 then validUtf8Cont2 b rest
    else if seqLen b = 3 then validUtf8Cont3 b rest
    else if seqLen b = 4 then validUtf8Cont4 b rest
    else false

/-- One continuation byte after lead `b`, then a valid tail. -/
def validUtf8Cont2 (b : Nat) : List Nat → Bool
  | c1 :: r => (cont1Lo b ≤ c1 && c1 ≤ cont1Hi b) && validUtf8 r
  | [] => false

/-- Two continuation bytes after lead `b`, then a valid tail. -/
def validUtf8Cont3 (b : Nat) : List Nat → Bool
  | c1 :: c2 :: r => (cont1Lo b ≤ c1 && c1 ≤ cont1Hi b) && isCont c2 && validUtf8 r
  | _ => false

/-- Three continuation bytes after lead `b`, then a valid tail. -/
def validUtf8Cont4 (b : Nat) : List Nat → Bool
  | c1 :: c2 :: c3 :: r =>
      (cont1Lo b ≤ c1 && c1 ≤ cont1Hi b) && isCont c2 && isCont c3 && validUtf8 r
  | _ => false

end

/-- `impl TryFrom<&ByteString> for String` (src/decoder.rs): succeed with the
same bytes exactly when they are valid UTF-8. -/
def string_try_from (v : ByteString) : Option (List Nat) :=
  if validUtf8 v.bytes then some v.bytes else none

/-! ## Decimal digits and the i64 parse (str::parse::<i64>) -/

def isDigit (b : Nat) : Bool := c.M_0 ≤ b && b ≤ c.M_9

/-- Value of a string of ASCII digits, most significant first. -/
def digitsToNat (ds : List Nat) : Nat := ds.foldl (fun a b => a * 10 + (b - c.M_0)) 0

/-- Model of Rust `str::parse::<i64>()` on the bytes of a (UTF-8 valid)
string: an optional single leading `+` or `-` sign, then one or more ASCII
digits (leading zeros are accepted by `parse`), with the resulting value
required to fit in a signed 64-bit integer. -/
def parseI64 (s : List Nat) : Option Int :=
  match s with
  | [] => none
  | b :: rest =>
    if b = 0x2B then parseI64digits false rest
    else if b = c.M_DASH then parseI64digits true rest
    else parseI64digits false s
where
  parseI64digits (neg : Bool) (ds : List Nat) : Option Int :=
    if ds = [] then none
    else if ds.all isDigit then
      if neg then
        if digitsToNat ds ≤ 2 ^ 63 then some (-(digitsToNat ds : Int)) else none
      else
        if digitsToNat ds ≤ 2 ^ 63 - 1 then some ((digitsToNat ds : Int)) else none
    else none

/-- `fn ascii_bytes_to_int` (src/decoder.rs): UTF-8 check, then i64 parse. -/
def ascii_bytes_to_int (bytes : List Nat) : Except BencodeError Int :=
  if validUtf8 bytes then
    match parseI64 bytes with
    | some i => .ok i
    | none => .error .IntParseInt
  else .error .IntParseAscii

/-! ## Decimal rendering (usize::to_string / i64::to_string) -/

/-- Digit-producing loop, fuel-recursive so that it is structural. -/
def natDecAux : Nat → Nat → List Nat
  | 0, _ => []
  | f + 1, n => if n < 10 then [c.M_0 + n] else natDecAux f (n / 10) ++ [c.M_0 + n % 10]

/-- Decimal digits of a natural number, as ASCII bytes (no leading zeros;
`0` renders as the single digit `0`). -/
def natToDecBytes (n : Nat) : List Nat := natDecAux (n + 1) n

/-- Model of Rust `i64::to_string`: a minus sign for strictly negative
values, then the decimal digits of the absolute value. -/
def intToDecBytes (i : Int) : List Nat :=
  if i < 0 then c.M_DASH :: natToDecBytes i.natAbs else natToDecBytes i.natAbs

/-! ## Decoder (src/decoder.rs) -/

/-- The integer reader's accumulation loop (`fn read_int`): `buff` is the
accumulated span, the list argument is the unread input. -/
def read_int_loop (buff : List Nat) : List Nat → Except BencodeError (Int × List Nat)
  | [] => .error .BytestreamEnded
  | b :: rest =>
    if buff = [] ∧ b = c.M_END then .error .UnexpectedEndMarker
    else if b = c.M_END then
      match ascii_bytes_to_int buff with
      | .ok i => .ok (i, rest)
      | .error e => .error e
    else if b = c.M_DASH ∧ rest.head? = some c.M_0 then .error .IntParseNegativeZero
    else if buff = [] ∧ b = c.M_0 ∧ rest.head? ≠ some c.M_END then .error .IntParseLeadingZero
    else read_int_loop (buff ++ [b]) rest

/-- `fn read_int`: consume the opening `i`, then run the loop. -/
def read_int (l : List Nat) : Except BencodeError (Int × List Nat) :=
  read_int_loop [] l.tail

/-- The `while i < str_len` payload loop of `fn read_string`: consume
exactly `n` bytes verbatim. -/
def take_payload : Nat → List Nat → Except BencodeError (List Nat × List Nat)
  | 0, l => .ok ([], l)
  | _ + 1, [] => .error .BytestreamEnded
  | n + 1, b :: rest =>
    match take_payload n rest with
    | .ok (s, r) => .ok (b :: s, r)
    | .error e => .error e

/-- The length-prefix loop of `fn read_string`: accumulate digits until the
colon, with the special empty-string handling for a leading `0`. -/
def read_string_loop (len_buff : List Nat) : List Nat → Except BencodeError (ByteString × List Nat)
  | [] => .error .BytestreamEnded
  | b :: rest =>
    if b = c.M_COLON then
      match ascii_bytes_to_int len_buff with
      | .error e => .error e
      | .ok str_len =>
        match take_payload str_len.toNat rest with
        | .ok (s, r) => .ok (ByteString.mk s, r)
        | .error e => .error e
    else if isDigit b then
      if len_buff = [] ∧ b = c.M_0 then
        if rest.head? = some c.M_COLON then .ok (ByteString.mk [], rest.tail)
        else .error .StrParseLeadingZero
      else read_string_loop (len_buff ++ [b]) rest
    else .error .StrLenInvalidByte

/-- `fn read_string`. -/
def read_string (l : List Nat) : Except BencodeError (ByteString × List Nat) :=
  read_string_loop [] l

mutual

/-- `pub fn parse_bytes` (src/decoder.rs): peek the next byte and dispatch. -/
def parse_bytes (fuel : Nat) (l : List Nat) : Except BencodeError (BencodeItem × List Nat) :=
  match fuel with
  | 0 => .error .BytestreamEnded
  | f + 1 =>
    match l with
    | [] => .error .BytestreamEnded
    | b :: _ =>
      if b = c.M_DICT then
        match read_dict f l with
        | .ok (d, r) => .ok (.Dict d, r)
        | .error e => .error e
      else if b = c.M_INT then
        match read_int l with
        | .ok (i, r) => .ok (.Int i, r)
        | .error e => .error e
      else if b = c.M_LIST then
        match read_list f l with
        | .ok (xs, r) => .ok (.List xs, r)
        | .error e => .error e
      else if isDigit b then
        match read_string l with
        | .ok (s, r) => .ok (.String s, r)
        | .error e => .error e
      else if b = c.M_END then .error .UnexpectedEndMarker
      else .error (.UnrecognizedByte b)

/-- `fn read_dict`: consume the opening `d`; if the next byte is `e`, return
an empty dict WITHOUT consuming the `e` (this mirrors the source exactly:
the early return happens before any `next()` on the terminator); otherwise
run the key/value loop. -/
def read_dict (fuel : Nat) (l : List Nat) :
    Except BencodeError (List (List Nat × BencodeItem) × List Nat) :=
  match fuel with
  | 0 => .error .BytestreamEnded
  | f + 1 =>
    if l.tail.head? = some c.M_END then .ok ([], l.tail)
    else read_dict_loop f l.tail

/-- The key/value loop of `fn read_dict`: read a string key, require it to
be valid text, read the value, and stop after consuming a terminating `e`. -/
def read_dict_loop (fuel : Nat) (l : List Nat) :
    Except BencodeError (List (List Nat × BencodeItem) × List Nat) :=
  match fuel with
  | 0 => .error .BytestreamEnded
  | f + 1 =>
    match read_string l with
    | .error e => .error e
    | .ok (sb, r1) =>
      match string_try_from sb with
      | none => .error .DictKeyParse
      | some key =>
        match parse_bytes f r1 with
        | .error e => .error e
        | .ok (v, r2) =>
          if r2.head? = some c.M_END then .ok ([(key, v)], r2.tail)
          else
            match read_dict_loop f r2 with
            | .ok (ps, r3) => .ok ((key, v) :: ps, r3)
            | .error e => .error e

/-- `fn read_list`: consume the opening `l`, then run the element loop. -/
def read_list (fuel : Nat) (l : List Nat) :
    Except BencodeError (List BencodeItem × List Nat) :=
  match fuel with
  | 0 => .error .BytestreamEnded
  | f + 1 => read_list_loop f l.tail

/-- The element loop of `fn read_list`: a terminating `e` is consumed and
ends the list; end of input is an error; anything else parses one value. -/
def read_list_loop (fuel : Nat) (l : List Nat) :
    Except BencodeError (List BencodeItem × List Nat) :=
  match fuel with
  | 0 => .error .BytestreamEnded
  | f + 1 =>
    match l with
    | [] => .error .BytestreamEnded
    | b :: rest =>
      if b = c.M_END then .ok ([], rest)
      else
        match parse_bytes f l with
        | .error e => .error e
        | .ok (v, r) =>
          match read_list_loop f r with
          | .ok (xs, r2) => .ok (v :: xs, r2)
          | .error e => .error e

end

/-- Decoding a complete byte sequence: `parse_bytes` on a fresh cursor.  The
fuel `3 * length + 3` is amply sufficient (each unit of recursion depth
consumes input, and at most three nested calls happen per input byte); the
remaining-cursor component is discarded, as in the Rust API, where the
caller's iterator is simply left wherever parsing stopped. -/
def decode (l : List Nat) : Except BencodeError BencodeItem :=
  (parse_bytes (3 * l.length + 3) l).map Prod.fst

/-! ## Encoder (src/encoder.rs) -/

/-- `fn encode_int`: `i`, the i64's decimal form, `e`. -/
def encode_int (i : Int) : List Nat := c.M_INT :: intToDecBytes i ++ [c.M_END]

/-- `fn encode_string`: decimal length, colon, payload verbatim. -/
def encode_string (s : ByteString) : List Nat :=
  natToDecBytes s.bytes.length ++ c.M_COLON :: s.bytes

mutual

/-- `impl AsBencodeBytes for BencodeItem` (`fn as_bytes`). -/
def as_bytes : BencodeItem → List Nat
  | .String s => encode_string s
  | .Int i => encode_int i
  | .List l => encode_list l
  | .Dict d => encode_dict d

/-- `fn encode_list`: `l`, each element in order, `e`. -/
def encode_list (l : List BencodeItem) : List Nat :=
  c.M_LIST :: encode_items l ++ [c.M_END]

/-- The element fold of `fn encode_list`. -/
def encode_items : List BencodeItem → List Nat
  | [] => []
  | x :: xs => as_bytes x ++ encode_items xs

/-- `fn encode_dict`: `d`, each key (re-encoded as a byte string) and value
in stored order, `e`. -/
def encode_dict (d : List (List Nat × BencodeItem)) : List Nat :=
  c.M_DICT :: encode_pairs d ++ [c.M_END]

/-- The pair fold of `fn encode_dict`. -/
def encode_pairs : List (List Nat × BencodeItem) → List Nat
  | [] => []
  | (k, v) :: ps => encode_string (ByteString.mk k) ++ as_bytes v ++ encode_pairs ps

end

/-! ## Auxiliary definitions used to state the claims -/

/-- ASCII bytes of a string literal, for readable concrete inputs. -/
def s2b (s : String) : List Nat := s.data.map Char.toNat

/-- A dict key that the decoder can both produce and re-encode: valid UTF-8
and with a length whose decimal form parses as an i64. -/
def goodKey (k : List Nat) : Bool := validUtf8 k && decide (k.length < 2 ^ 63)

mutual

/-- Values in canonical range for the codec: byte strings and dict keys of
i64-representable length, integers within i64, and no empty dict anywhere
(an empty dict's terminator handling makes its encoding non-reparsable in
context, see the round-trip results). -/
def goodItem : BencodeItem → Bool
  | .String s => decide (s.bytes.length < 2 ^ 63)
  | .Int i => decide (-(2 ^ 63) ≤ i) && decide (i < 2 ^ 63)
  | .List xs => goodItems xs
  | .Dict ps => !ps.isEmpty && goodPairs ps

/-- `goodItem` on every element of a list. -/
def goodItems : List BencodeItem → Bool
  | [] => true
  | x :: xs => goodItem x && goodItems xs

/-- `goodKey`/`goodItem` on every pair of a dict. -/
def goodPairs : List (List Nat × BencodeItem) → Bool
  | [] => true
  | (k, v) :: ps => goodKey k && goodItem v && goodPairs ps

end

/-- No minus sign immediately followed by a `0` anywhere in the list (the
integer reader rejects that pattern wherever it occurs). -/
def dashZeroFree : List Nat → Bool
  | [] => true
  | b :: rest => !(b = c.M_DASH && rest.head? = some c.M_0) && dashZeroFree rest

/-- The integer-body shape stated by the specification: an optional single
leading minus, then one or more ASCII digits, no leading zeros (except the
single digit 0), no -0, and a magnitude that fits in a signed 64-bit
integer. -/
def intBodyClaimed (body : List Nat) : Prop :=
  (body ≠ [] ∧ (∀ b ∈ body, isDigit b = true) ∧
    (body.head? = some c.M_0 → body = [c.M_0]) ∧ digitsToNat body < 2 ^ 63)
  ∨
  (body.head? = some c.M_DASH ∧ body.tail ≠ [] ∧
    (∀ b ∈ body.tail, isDigit b = true) ∧
    body.tail.head? ≠ some c.M_0 ∧ digitsToNat body.tail ≤ 2 ^ 63)

/-- The additional integer-body shape the code accepts beyond the claimed
one: a single leading plus sign followed by one or more ASCII digits
(leading zeros allowed after the plus), with the value fitting in i64.
This leniency comes from delegating to Rust str::parse::<i64>. -/
def intBodyPlus (body : List Nat) : Prop :=
  body.head? = some 0x2B ∧ body.tail ≠ [] ∧
    (∀ b ∈ body.tail, isDigit b = true) ∧ digitsToNat body.tail < 2 ^ 63

instance (body : List Nat) : Decidable (intBodyClaimed body) := by
  unfold intBodyClaimed
  infer_instance

instance (body : List Nat) : Decidable (intBodyPlus body) := by
  unfold intBodyPlus
  infer_instance

/-! ## Values of the marker constants -/

@[simp] theorem M_DICT_eq : c.M_DICT = 0x64 := rfl

@[simp] theorem M_INT_eq : c.M_INT = 0x69 := rfl

@[simp] theorem M_LIST_eq : c.M_LIST = 0x6C := rfl

@[simp] theorem M_END_eq : c.M_END = 0x65 := rfl

@[simp] theorem M_COLON_eq : c.M_COLON = 0x3A := rfl

@[simp] theorem M_0_eq : c.M_0 = 0x30 := rfl

@[simp] theorem M_9_eq : c.M_9 = 0x39 := rfl

@[simp] theorem M_DASH_eq : c.M_DASH = 0x2D := rfl

/-! ## Lemmas about decimal digits -/

theorem isDigit_iff (b : Nat) : isDigit b = true ↔ 0x30 ≤ b ∧ b ≤ 0x39 := by
  simp [isDigit]

theorem natDecAux_congr : ∀ (n f g : Nat), n < f → n < g → natDecAux f n = natDecAux g n := by
  intro n
  induction n using Nat.strong_induction_on with
  | _ n IH =>
    intro f g hf hg
    cases f with
    | zero => omega
    | succ f =>
      cases g with
      | zero => omega
      | succ g =>
        by_cases h10 : n < 10
        · simp [natDecAux, h10]
        · have hdiv : n / 10 < n := Nat.div_lt_self (by omega) (by omega)
          simp only [natDecAux, if_neg h10]
          rw [IH (n / 10) hdiv f g (by omega) (by omega)]

theorem natToDecBytes_eq (n : Nat) :
    natToDecBytes n =
      if n < 10 then [c.M_0 + n] else natToDecBytes (n / 10) ++ [c.M_0 + n % 10] := by
  have h1 : natToDecBytes n =
      if n < 10 then [c.M_0 + n] else natDecAux n (n / 10) ++ [c.M_0 + n % 10] := by
    simp only [natToDecBytes, natDecAux]
  by_cases h10 : n < 10
  · rw [h1, if_pos h10, if_pos h10]
  · have hdiv : n / 10 < n := Nat.div_lt_self (by omega) (by omega)
    rw [h1, if_neg h10, if_neg h10,
      natDecAux_congr (n / 10) n (n / 10 + 1) (by omega) (by omega)]
    rfl

theorem natToDecBytes_ne_nil (n : Nat) : natToDecBytes n ≠ [] := by
  rw [natToDecBytes_eq]
  by_cases h10 : n < 10 <;> simp [h10]

theorem natToDecBytes_digits : ∀ n, ∀ b ∈ natToDecBytes n, isDigit b = true := by
  intro n
  induction n using Nat.strong_induction_on with
  | _ n IH =>
    intro b hb
    rw [natToDecBytes_eq] at hb
    by_cases h10 : n < 10
    · rw [if_pos h10] at hb
      simp only [List.mem_singleton, M_0_eq] at hb
      rw [isDigit_iff]
      omega
    · rw [if_neg h10] at hb
      rcases List.mem_append.mp hb with hm | hm
      · exact IH (n / 10) (Nat.div_lt_self (by omega) (by omega)) b hm
      · simp only [List.mem_singleton, M_0_eq] at hm
        rw [isDigit_iff]
        have := Nat.mod_lt n (y := 10) (by omega)
        omega

theorem natToDecBytes_head : ∀ n h, (natToDecBytes n).head? = some h →
    0x30 ≤ h ∧ h ≤ 0x39 ∧ (h = c.M_0 → n = 0) := by
  intro n
  induction n using Nat.strong_induction_on with
  | _ n IH =>
    intro h hh
    rw [natToDecBytes_eq] at hh
    by_cases h10 : n < 10
    · rw [if_pos h10] at hh
      simp only [List.head?_cons, Option.some.injEq, M_0_eq] at hh
      subst hh
      refine ⟨by omega, by omega, ?_⟩
      intro h0
      simp only [M_0_eq] at h0
      omega
    · rw [if_neg h10] at hh
      obtain ⟨a, t, ht⟩ : ∃ a t, natToDecBytes (n / 10) = a :: t := by
        cases hc : natToDecBytes (n / 10) with
        | nil => exact absurd hc (natToDecBytes_ne_nil _)
        | cons a t => exact ⟨a, t, rfl⟩
      rw [ht] at hh
      simp only [List.cons_append, List.head?_cons, Option.some.injEq] at hh
      subst hh
      have hd : n / 10 < n := Nat.div_lt_self (by omega) (by omega)
      have h2 := IH (n / 10) hd a (by rw [ht]; rfl)
      refine ⟨h2.1, h2.2.1, fun h0 => ?_⟩
      have := h2.2.2 h0
      omega

theorem digitsToNat_append_singleton (ds : List Nat) (d : Nat) :
    digitsToNat (ds ++ [d]) = digitsToNat ds * 10 + (d - c.M_0) := by
  simp [digitsToNat, List.foldl_append]

theorem digitsToNat_natToDecBytes : ∀ n, digitsToNat (natToDecBytes n) = n := by
  intro n
  induction n using Nat.strong_induction_on with
  | _ n IH =>
    rw [natToDecBytes_eq]
    by_cases h10 : n < 10
    · rw [if_pos h10]
      simp only [digitsToNat, List.foldl_cons, List.foldl_nil, M_0_eq]
      omega
    · rw [if_neg h10, digitsToNat_append_singleton,
        IH (n / 10) (Nat.div_lt_self (by omega) (by omega))]
      have := Nat.div_add_mod n 10
      have := Nat.mod_lt n (y := 10) (by omega)
      simp only [M_0_eq]
      omega

/-! ## Lemmas about UTF-8 validity and the i64 parse -/

theorem validUtf8_cons_ascii (b : Nat) (t : List Nat) (hb : b ≤ 0x7F) :
    validUtf8 (b :: t) = validUtf8 t := by
  conv_lhs => rw [validUtf8]
  rw [if_pos hb]

theorem validUtf8_of_ascii : ∀ l : List Nat, (∀ b ∈ l, b ≤ 0x7F) → validUtf8 l = true := by
  intro l
  induction l with
  | nil => intro; rfl
  | cons b t IH =>
    intro h
    rw [validUtf8_cons_ascii b t (h b (List.mem_cons_self b t))]
    exact IH fun x hx => h x (List.mem_cons_of_mem b hx)

theorem isDigit_ascii (b : Nat) (h : isDigit b = true) : b ≤ 0x7F := by
  rw [isDigit_iff] at h
  omega

theorem parseI64_digits (ds : List Nat) (hne : ds ≠ []) (hd : ∀ b ∈ ds, isDigit b = true) :
    parseI64.parseI64digits false ds =
      if digitsToNat ds ≤ 2 ^ 63 - 1 then some ((digitsToNat ds : Int)) else none := by
  rw [parseI64.parseI64digits, if_neg hne, if_pos (by simpa [List.all_eq_true] using hd)]
  rfl

theorem parseI64_digits_neg (ds : List Nat) (hne : ds ≠ []) (hd : ∀ b ∈ ds, isDigit b = true) :
    parseI64.parseI64digits true ds =
      if digitsToNat ds ≤ 2 ^ 63 then some (-(digitsToNat ds : Int)) else none := by
  rw [parseI64.parseI64digits, if_neg hne, if_pos (by simpa [List.all_eq_true] using hd)]
  rfl

theorem parseI64_natToDecBytes (n : Nat) (h : n < 2 ^ 63) :
    parseI64 (natToDecBytes n) = some ((n : Int)) := by
  obtain ⟨a, t, ht⟩ : ∃ a t, natToDecBytes n = a :: t := by
    cases hc : natToDecBytes n with
    | nil => exact absurd hc (natToDecBytes_ne_nil _)
    | cons a t => exact ⟨a, t, rfl⟩
  have ha := natToDecBytes_head n a (by rw [ht]; rfl)
  rw [ht, parseI64, if_neg (by omega), if_neg (by simp only [M_DASH_eq]; omega), ← ht,
    parseI64_digits _ (natToDecBytes_ne_nil n) (natToDecBytes_digits n),
    digitsToNat_natToDecBytes, if_pos (by omega)]

theorem ascii_bytes_to_int_natToDecBytes (n : Nat) (h : n < 2 ^ 63) :
    ascii_bytes_to_int (natToDecBytes n) = .ok ((n : Int)) := by
  rw [ascii_bytes_to_int,
    if_pos (validUtf8_of_ascii _ fun b hb => isDigit_ascii b (natToDecBytes_digits n b hb)),
    parseI64_natToDecBytes n h]

/-! ## Lemmas about the string reader -/

theorem take_payload_of_le : ∀ (n : Nat) (l : List Nat), n ≤ l.length →
    take_payload n l = .ok (l.take n, l.drop n) := by
  intro n
  induction n with
  | zero => intro l _; simp [take_payload]
  | succ n IH =>
    intro l hl
    cases l with
    | nil => simp at hl
    | cons b t =>
      simp only [take_payload, IH t (by simpa using hl)]
      simp only [List.take_succ_cons, List.drop_succ_cons]

theorem take_payload_of_gt : ∀ (n : Nat) (l : List Nat), l.length < n →
    take_payload n l = .error .BytestreamEnded := by
  intro n
  induction n with
  | zero => intro l hl; simp at hl
  | succ n IH =>
    intro l hl
    cases l with
    | nil => rfl
    | cons b t => simp only [take_payload, IH t (by simpa using hl)]

theorem read_string_loop_digits : ∀ (ds lb p : List Nat),
    (∀ b ∈ ds, isDigit b = true) → lb ≠ [] →
    read_string_loop lb (ds ++ p) = read_string_loop (lb ++ ds) p := by
  intro ds
  induction ds with
  | nil => intro lb p _ _; rw [List.nil_append, List.append_nil]
  | cons d t IH =>
    intro lb p hd hlb
    have hdig : isDigit d = true := hd d (List.mem_cons_self d t)
    have hcolon : ¬ d = c.M_COLON := by
      rw [isDigit_iff] at hdig
      simp only [M_COLON_eq]
      omega
    rw [List.cons_append, read_string_loop, if_neg hcolon, if_pos hdig,
      if_neg (by simp [hlb]),
      IH (lb ++ [d]) p (fun b hb => hd b (List.mem_cons_of_mem d hb)) (by simp),
      List.append_assoc, List.singleton_append]

theorem read_string_spec (L : Nat) (p : List Nat) (hL : L < 2 ^ 63) :
    read_string (natToDecBytes L ++ c.M_COLON :: p) =
      if L ≤ p.length then .ok (⟨p.take L⟩, p.drop L) else .error .BytestreamEnded := by
  by_cases h0 : L = 0
  · subst h0
    have h00 : natToDecBytes 0 = [c.M_0] := rfl
    rw [h00, List.cons_append, List.nil_append, read_string, read_string_loop]
    rw [if_neg (by simp), if_pos (by rw [isDigit_iff]; simp), if_pos (by simp),
      if_pos (by simp)]
    simp
  · obtain ⟨a, t, ht⟩ : ∃ a t, natToDecBytes L = a :: t := by
      cases hc : natToDecBytes L with
      | nil => exact absurd hc (natToDecBytes_ne_nil _)
      | cons a t => exact ⟨a, t, rfl⟩
    have ha := natToDecBytes_head L a (by rw [ht]; rfl)
    have hadig : isDigit a = true := by rw [isDigit_iff]; omega
    have hacolon : ¬ a = c.M_COLON := by simp only [M_COLON_eq]; omega
    have ha0 : ¬ (([] : List Nat) = [] ∧ a = c.M_0) := by
      rintro ⟨-, hz⟩
      exact h0 (ha.2.2 hz)
    rw [read_string, ht, List.cons_append, read_string_loop, if_neg hacolon, if_pos hadig,
      if_neg ha0]
    have hstep := read_string_loop_digits t ([] ++ [a]) (c.M_COLON :: p)
      (fun b hb => natToDecBytes_digits L b (by rw [ht]; exact List.mem_cons_of_mem a hb))
      (by simp)
    rw [hstep]
    have hfull : (([] : List Nat) ++ [a] ++ t) = natToDecBytes L := by rw [ht]; rfl
    rw [read_string_loop, if_pos rfl, hfull, ascii_bytes_to_int_natToDecBytes L hL]
    simp only [Int.toNat_natCast]
    by_cases hlen : L ≤ p.length
    · rw [take_payload_of_le L p hlen, if_pos hlen]
    · rw [take_payload_of_gt L p (by omega), if_neg hlen]

/-! ## Lemmas about the integer reader -/

theorem read_int_loop_digits : ∀ (ds buff rest : List Nat),
    (∀ b ∈ ds, isDigit b = true) → buff ≠ [] →
    read_int_loop buff (ds ++ rest) = read_int_loop (buff ++ ds) rest := by
  intro ds
  induction ds with
  | nil => intro buff rest _ _; rw [List.nil_append, List.append_nil]
  | cons d t IH =>
    intro buff rest hd hbuff
    have hdig : isDigit d = true := hd d (List.mem_cons_self d t)
    rw [isDigit_iff] at hdig
    rw [List.cons_append, read_int_loop,
      if_neg (by rintro ⟨-, h⟩; simp only [M_END_eq] at h; omega),
      if_neg (by simp only [M_END_eq]; omega),
      if_neg (by rintro ⟨h, -⟩; simp only [M_DASH_eq] at h; omega),
      if_neg (by rintro ⟨h, -⟩; exact hbuff h),
      IH (buff ++ [d]) rest (fun b hb => hd b (List.mem_cons_of_mem d hb)) (by simp),
      List.append_assoc, List.singleton_append]

theorem read_int_loop_end (buff rest : List Nat) (hne : buff ≠ []) :
    read_int_loop buff (c.M_END :: rest) =
      match ascii_bytes_to_int buff with
      | .ok i => .ok (i, rest)
      | .error e => .error e := by
  rw [read_int_loop, if_neg (by rintro ⟨h, -⟩; exact hne h), if_pos rfl]

theorem read_int_loop_nat (n : Nat) (h : n < 2 ^ 63) (rest : List Nat) :
    read_int_loop [] (natToDecBytes n ++ c.M_END :: rest) = .ok ((n : Int), rest) := by
  by_cases h0 : n = 0
  · subst h0
    have h00 : natToDecBytes 0 = [c.M_0] := rfl
    rw [h00, List.cons_append, List.nil_append, read_int_loop,
      if_neg (by rintro ⟨-, hz⟩; simp only [M_0_eq, M_END_eq] at hz; omega),
      if_neg (by simp), if_neg (by rintro ⟨hz, -⟩; simp only [M_0_eq, M_DASH_eq] at hz; omega),
      if_neg (by rintro ⟨-, -, hz⟩; exact hz rfl), List.nil_append,
      read_int_loop_end _ _ (by simp)]
    rw [show ([c.M_0] : List Nat) = natToDecBytes 0 from rfl,
      ascii_bytes_to_int_natToDecBytes 0 (by norm_num)]
  · obtain ⟨a, t, ht⟩ : ∃ a t, natToDecBytes n = a :: t := by
      cases hc : natToDecBytes n with
      | nil => exact absurd hc (natToDecBytes_ne_nil _)
      | cons a t => exact ⟨a, t, rfl⟩
    have ha := natToDecBytes_head n a (by rw [ht]; rfl)
    have ha0 : a ≠ c.M_0 := fun hz => h0 (ha.2.2 hz)
    rw [ht, List.cons_append, read_int_loop,
      if_neg (by rintro ⟨-, hz⟩; simp only [M_END_eq] at hz; omega),
      if_neg (by simp only [M_END_eq]; omega),
      if_neg (by rintro ⟨hz, -⟩; simp only [M_DASH_eq] at hz; omega),
      if_neg (by rintro ⟨-, hz, -⟩; exact ha0 hz), List.nil_append,
      read_int_loop_digits t [a] (c.M_END :: rest)
        (fun b hb => natToDecBytes_digits n b (by rw [ht]; exact List.mem_cons_of_mem a hb))
        (by simp),
      List.singleton_append, ← ht, read_int_loop_end _ _ (natToDecBytes_ne_nil n),
      ascii_bytes_to_int_natToDecBytes n h]

theorem neg_natAbs_of_neg (i : Int) (h : i < 0) : -((i.natAbs : Nat) : Int) = i := by
  omega

theorem read_int_loop_int (i : Int) (h1 : -(2 ^ 63) ≤ i) (h2 : i < 2 ^ 63) (rest : List Nat) :
    read_int_loop [] (intToDecBytes i ++ c.M_END :: rest) = .ok (i, rest) := by
  by_cases hneg : i < 0
  · have habs : 1 ≤ i.natAbs := by omega
    obtain ⟨a, t, ht⟩ : ∃ a t, natToDecBytes i.natAbs = a :: t := by
      cases hc : natToDecBytes i.natAbs with
      | nil => exact absurd hc (natToDecBytes_ne_nil _)
      | cons a t => exact ⟨a, t, rfl⟩
    have ha := natToDecBytes_head i.natAbs a (by rw [ht]; rfl)
    have ha0 : a ≠ c.M_0 := fun hz => by have := ha.2.2 hz; omega
    rw [intToDecBytes, if_pos hneg, List.cons_append, read_int_loop,
      if_neg (by rintro ⟨-, hz⟩; simp only [M_END_eq, M_DASH_eq] at hz; omega),
      if_neg (by simp), if_neg ?hpeek,
      if_neg (by rintro ⟨-, hz, -⟩; simp only [M_0_eq, M_DASH_eq] at hz; omega), List.nil_append,
      read_int_loop_digits (natToDecBytes i.natAbs) [c.M_DASH] (c.M_END :: rest)
        (natToDecBytes_digits i.natAbs) (by simp),
      List.singleton_append, read_int_loop_end _ _ (by simp)]
    case hpeek =>
      rintro ⟨-, hz⟩
      rw [ht] at hz
      simp only [List.cons_append, List.head?_cons, Option.some.injEq] at hz
      exact ha0 hz
    have hascii : ascii_bytes_to_int (c.M_DASH :: natToDecBytes i.natAbs) = .ok i := by
      rw [ascii_bytes_to_int, if_pos, parseI64]
      · rw [if_neg (by simp), if_pos (by simp),
          parseI64_digits_neg _ (natToDecBytes_ne_nil _) (natToDecBytes_digits _),
          digitsToNat_natToDecBytes, if_pos (by omega), neg_natAbs_of_neg i hneg]
      · refine validUtf8_of_ascii _ fun b hb => ?_
        rcases List.mem_cons.mp hb with hb | hb
        · subst hb; norm_num
        · exact isDigit_ascii b (natToDecBytes_digits _ b hb)
    rw [hascii]
  · have hnn : (0 : Int) ≤ i := by omega
    have habs : ((i.natAbs : Nat) : Int) = i := by omega
    rw [intToDecBytes, if_neg hneg, read_int_loop_nat i.natAbs (by omega) rest, habs]

theorem read_int_spec_int (i : Int) (h1 : -(2 ^ 63) ≤ i) (h2 : i < 2 ^ 63) (rest : List Nat) :
    read_int (c.M_INT :: intToDecBytes i ++ c.M_END :: rest) = .ok (i, rest) := by
  rw [read_int, List.cons_append, List.tail_cons]
  exact read_int_loop_int i h1 h2 rest

/-! ## Dispatch lemmas for parse_bytes -/

theorem parse_bytes_dict (f : Nat) (t : List Nat) :
    parse_bytes (f + 1) (c.M_DICT :: t) =
      match read_dict f (c.M_DICT :: t) with
      | .ok (d, r) => .ok (.Dict d, r)
      | .error e => .error e := by
  rw [parse_bytes, if_pos rfl]

theorem parse_bytes_int (f : Nat) (t : List Nat) :
    parse_bytes (f + 1) (c.M_INT :: t) =
      match read_int (c.M_INT :: t) with
      | .ok (i, r) => .ok (.Int i, r)
      | .error e => .error e := by
  rw [parse_bytes, if_neg (by decide), if_pos rfl]

theorem parse_bytes_list (f : Nat) (t : List Nat) :
    parse_bytes (f + 1) (c.M_LIST :: t) =
      match read_list f (c.M_LIST :: t) with
      | .ok (xs, r) => .ok (.List xs, r)
      | .error e => .error e := by
  rw [parse_bytes, if_neg (by decide), if_neg (by decide), if_pos rfl]

theorem parse_bytes_digit (f : Nat) (b : Nat) (t : List Nat) (hb : isDigit b = true) :
    parse_bytes (f + 1) (b :: t) =
      match read_string (b :: t) with
      | .ok (s, r) => .ok (.String s, r)
      | .error e => .error e := by
  rw [isDigit_iff] at hb
  rw [parse_bytes, if_neg (by simp only [M_DICT_eq]; omega),
    if_neg (by simp only [M_INT_eq]; omega), if_neg (by simp only [M_LIST_eq]; omega),
    if_pos (by rw [isDigit_iff]; omega)]

theorem decode_eq (l : List Nat) :
    decode l = (parse_bytes (3 * l.length + 2 + 1) l).map Prod.fst := rfl

/-! ## Characterization of the integer-body language -/

theorem dashZeroFree_cons (b : Nat) (t : List Nat) :
    dashZeroFree (b :: t) = true ↔
      ¬(b = c.M_DASH ∧ t.head? = some c.M_0) ∧ dashZeroFree t = true := by
  rw [dashZeroFree]
  simp only [Bool.and_eq_true, Bool.not_eq_true', Bool.and_eq_false_iff,
    decide_eq_false_iff_not, decide_eq_true_eq]
  tauto

theorem dashZeroFree_of_digits : ∀ l : List Nat,
    (∀ b ∈ l, isDigit b = true) → dashZeroFree l = true := by
  intro l
  induction l with
  | nil => intro; rfl
  | cons b t IH =>
    intro h
    rw [dashZeroFree_cons]
    refine ⟨fun hc => ?_, IH fun x hx => h x (List.mem_cons_of_mem b hx)⟩
    have := h b (List.mem_cons_self b t)
    rw [isDigit_iff] at this
    rw [hc.1] at this
    simp only [M_DASH_eq] at this
    omega

theorem read_int_loop_ok_facts : ∀ (body buff : List Nat) (i : Int) (r : List Nat),
    c.M_END ∉ body →
    read_int_loop buff (body ++ [c.M_END]) = .ok (i, r) →
    ascii_bytes_to_int (buff ++ body) = .ok i ∧ r = [] ∧
    (buff = [] → body ≠ [] ∧ (body.head? = some c.M_0 → body = [c.M_0])) ∧
    dashZeroFree body = true := by
  intro body
  induction body with
  | nil =>
    intro buff i r _ hok
    rw [List.nil_append] at hok
    by_cases hb : buff = []
    · rw [read_int_loop, if_pos ⟨hb, rfl⟩] at hok
      exact absurd hok (by simp)
    · rw [read_int_loop_end buff [] hb] at hok
      cases hascii : ascii_bytes_to_int buff with
      | ok j =>
        rw [hascii] at hok
        simp only [Except.ok.injEq, Prod.mk.injEq] at hok
        exact ⟨by rw [List.append_nil, hascii, hok.1], hok.2.symm,
          fun h => absurd h hb, rfl⟩
      | error e =>
        rw [hascii] at hok
        exact absurd hok (by simp)
  | cons b t IH =>
    intro buff i r hne hok
    have hbne : b ≠ c.M_END := fun h => hne (h ▸ List.mem_cons_self b t)
    have hnet : c.M_END ∉ t := fun h => hne (List.mem_cons_of_mem b h)
    rw [List.cons_append, read_int_loop, if_neg (fun h => hbne h.2), if_neg hbne] at hok
    by_cases hdz : b = c.M_DASH ∧ (t ++ [c.M_END]).head? = some c.M_0
    · rw [if_pos hdz] at hok
      exact absurd hok (by simp)
    · rw [if_neg hdz] at hok
      by_cases hlz : buff = [] ∧ b = c.M_0 ∧ (t ++ [c.M_END]).head? ≠ some c.M_END
      · rw [if_pos hlz] at hok
        exact absurd hok (by simp)
      · rw [if_neg hlz] at hok
        obtain ⟨h1, h2, _, h4⟩ := IH (buff ++ [b]) i r hnet hok
        refine ⟨by rwa [List.append_assoc, List.singleton_append] at h1, h2, ?_, ?_⟩
        · intro hbuff
          subst hbuff
          refine ⟨by simp, fun hh => ?_⟩
          simp only [List.head?_cons, Option.some.injEq] at hh
          have hterm : (t ++ [c.M_END]).head? = some c.M_END := by
            by_contra hcon
            exact hlz ⟨rfl, hh, hcon⟩
          cases t with
          | nil => rw [hh]
          | cons x xs =>
            simp only [List.cons_append, List.head?_cons, Option.some.injEq] at hterm
            exact absurd (hterm ▸ List.mem_cons_self x xs) hnet
        · rw [dashZeroFree_cons]
          refine ⟨fun hc => ?_, h4⟩
          apply hdz
          refine ⟨hc.1, ?_⟩
          cases t with
          | nil => exact absurd hc.2 (by simp)
          | cons x xs => simpa using hc.2

theorem read_int_loop_run : ∀ (body buff : List Nat),
    c.M_END ∉ body →
    (buff = [] → (body.head? = some c.M_0 → body = [c.M_0])) →
    dashZeroFree body = true →
    (buff ≠ [] ∨ body ≠ []) →
    read_int_loop buff (body ++ [c.M_END]) =
      match ascii_bytes_to_int (buff ++ body) with
      | .ok i => .ok (i, ([] : List Nat))
      | .error e => .error e := by
  intro body
  induction body with
  | nil =>
    intro buff _ _ _ hd
    have hb : buff ≠ [] := by
      rcases hd with h | h
      · exact h
      · exact absurd rfl h
    rw [List.nil_append, read_int_loop_end buff [] hb, List.append_nil]
  | cons b t IH =>
    intro buff hne hz hdzf _
    have hbne : b ≠ c.M_END := fun h => hne (h ▸ List.mem_cons_self b t)
    have hnet : c.M_END ∉ t := fun h => hne (List.mem_cons_of_mem b h)
    obtain ⟨hdz1, hdzt⟩ := (dashZeroFree_cons b t).mp hdzf
    rw [List.cons_append, read_int_loop, if_neg (fun h => hbne h.2), if_neg hbne,
      if_neg ?hdash, if_neg ?hzero,
      IH (buff ++ [b]) hnet (by simp) hdzt (Or.inl (by simp)),
      List.append_assoc, List.singleton_append]
    case hdash =>
      rintro ⟨hb0, hh⟩
      cases t with
      | nil =>
        simp only [List.nil_append, List.head?_cons, Option.some.injEq] at hh
        simp only [M_END_eq, M_0_eq] at hh
        omega
      | cons x xs => exact hdz1 ⟨hb0, by simpa using hh⟩
    case hzero =>
      rintro ⟨hbuff, hb0, hh⟩
      have hbody := hz hbuff (by rw [List.head?_cons, hb0])
      have ht : t = [] := by
        have := congrArg List.tail hbody
        simpa using this
      subst ht
      exact hh (by simp)

theorem parseI64digits_some_false (ds : List Nat) (i : Int)
    (h : parseI64.parseI64digits false ds = some i) :
    ds ≠ [] ∧ (∀ b ∈ ds, isDigit b = true) ∧ digitsToNat ds ≤ 2 ^ 63 - 1 ∧
      i = (digitsToNat ds : Int) := by
  rw [parseI64.parseI64digits] at h
  by_cases h1 : ds = []
  · rw [if_pos h1] at h
    exact absurd h (by simp)
  · rw [if_neg h1] at h
    by_cases h2 : ds.all isDigit = true
    · rw [if_pos h2, if_neg (by simp)] at h
      by_cases h3 : digitsToNat ds ≤ 2 ^ 63 - 1
      · rw [if_pos h3] at h
        simp only [Option.some.injEq] at h
        exact ⟨h1, by simpa [List.all_eq_true] using h2, h3, h.symm⟩
      · rw [if_neg h3] at h
        exact absurd h (by simp)
    · rw [if_neg h2] at h
      exact absurd h (by simp)

theorem parseI64digits_some_true (ds : List Nat) (i : Int)
    (h : parseI64.parseI64digits true ds = some i) :
    ds ≠ [] ∧ (∀ b ∈ ds, isDigit b = true) ∧ digitsToNat ds ≤ 2 ^ 63 ∧
      i = -(digitsToNat ds : Int) := by
  rw [parseI64.parseI64digits] at h
  by_cases h1 : ds = []
  · rw [if_pos h1] at h
    exact absurd h (by simp)
  · rw [if_neg h1] at h
    by_cases h2 : ds.all isDigit = true
    · rw [if_pos h2, if_pos rfl] at h
      by_cases h3 : digitsToNat ds ≤ 2 ^ 63
      · rw [if_pos h3] at h
        simp only [Option.some.injEq] at h
        exact ⟨h1, by simpa [List.all_eq_true] using h2, h3, h.symm⟩
      · rw [if_neg h3] at h
        exact absurd h (by simp)
    · rw [if_neg h2] at h
      exact absurd h (by simp)

theorem parseI64_some : ∀ (s : List Nat) (i : Int), parseI64 s = some i →
    ((∀ b ∈ s, isDigit b = true) ∧ s ≠ [] ∧ digitsToNat s ≤ 2 ^ 63 - 1 ∧
      i = (digitsToNat s : Int)) ∨
    (s.head? = some c.M_DASH ∧ s.tail ≠ [] ∧ (∀ b ∈ s.tail, isDigit b = true) ∧
      digitsToNat s.tail ≤ 2 ^ 63 ∧ i = -(digitsToNat s.tail : Int)) ∨
    (s.head? = some 0x2B ∧ s.tail ≠ [] ∧ (∀ b ∈ s.tail, isDigit b = true) ∧
      digitsToNat s.tail ≤ 2 ^ 63 - 1 ∧ i = (digitsToNat s.tail : Int)) := by
  intro s i h
  cases s with
  | nil => exact absurd h (by rw [parseI64]; simp)
  | cons b rest =>
    rw [parseI64] at h
    by_cases hplus : b = 0x2B
    · rw [if_pos hplus] at h
      obtain ⟨h1, h2, h3, h4⟩ := parseI64digits_some_false rest i h
      exact Or.inr (Or.inr ⟨by rw [List.head?_cons, hplus], h1, h2, h3, h4⟩)
    · rw [if_neg hplus] at h
      by_cases hdash : b = c.M_DASH
      · rw [if_pos hdash] at h
        obtain ⟨h1, h2, h3, h4⟩ := parseI64digits_some_true rest i h
        exact Or.inr (Or.inl ⟨by rw [List.head?_cons, hdash], h1, h2, h3, h4⟩)
      · rw [if_neg hdash] at h
        obtain ⟨h1, h2, h3, h4⟩ := parseI64digits_some_false (b :: rest) i h
        exact Or.inl ⟨h2, h1, h3, h4⟩

/-! ## Parsing the encoder's output (for canonical values) -/

theorem encode_string_eq (s : ByteString) :
    encode_string s = natToDecBytes s.bytes.length ++ c.M_COLON :: s.bytes := rfl

theorem encode_string_head (s : ByteString) :
    ∃ hb tl, encode_string s = hb :: tl ∧ isDigit hb = true := by
  obtain ⟨a, t, ht⟩ : ∃ a t, natToDecBytes s.bytes.length = a :: t := by
    cases hc : natToDecBytes s.bytes.length with
    | nil => exact absurd hc (natToDecBytes_ne_nil _)
    | cons a t => exact ⟨a, t, rfl⟩
  have ha := natToDecBytes_head _ a (by rw [ht]; rfl)
  exact ⟨a, t ++ c.M_COLON :: s.bytes, by rw [encode_string_eq, ht, List.cons_append],
    by rw [isDigit_iff]; omega⟩

theorem as_bytes_String (s : ByteString) : as_bytes (.String s) = encode_string s := by
  rw [as_bytes]

theorem as_bytes_Int (i : Int) : as_bytes (.Int i) = encode_int i := by
  rw [as_bytes]

theorem as_bytes_List (l : List BencodeItem) :
    as_bytes (.List l) = c.M_LIST :: encode_items l ++ [c.M_END] := by
  rw [as_bytes, encode_list]

theorem as_bytes_Dict (d : List (List Nat × BencodeItem)) :
    as_bytes (.Dict d) = c.M_DICT :: encode_pairs d ++ [c.M_END] := by
  rw [as_bytes, encode_dict]

theorem encode_pairs_cons (k : List Nat) (v : BencodeItem)
    (ps : List (List Nat × BencodeItem)) :
    encode_pairs ((k, v) :: ps) =
      encode_string (ByteString.mk k) ++ as_bytes v ++ encode_pairs ps := by
  rw [encode_pairs]

theorem encode_items_cons (x : BencodeItem) (xs : List BencodeItem) :
    encode_items (x :: xs) = as_bytes x ++ encode_items xs := by
  rw [encode_items]

/-- Every encoding starts with a byte other than the terminator. -/
theorem as_bytes_head : ∀ v : BencodeItem, ∃ hb tl, as_bytes v = hb :: tl ∧ hb ≠ c.M_END := by
  intro v
  cases v with
  | String s =>
    obtain ⟨hb, tl, heq, hd⟩ := encode_string_head s
    rw [isDigit_iff] at hd
    exact ⟨hb, tl, by rw [as_bytes_String, heq], by simp only [M_END_eq]; omega⟩
  | Int i =>
    exact ⟨c.M_INT, intToDecBytes i ++ [c.M_END],
      by rw [as_bytes_Int, encode_int, List.cons_append], by decide⟩
  | List l =>
    exact ⟨c.M_LIST, encode_items l ++ [c.M_END],
      by rw [as_bytes_List, List.cons_append], by decide⟩
  | Dict d =>
    exact ⟨c.M_DICT, encode_pairs d ++ [c.M_END],
      by rw [as_bytes_Dict, List.cons_append], by decide⟩

/-- Every encoding has at least two bytes. -/
theorem as_bytes_length : ∀ v : BencodeItem, 2 ≤ (as_bytes v).length := by
  intro v
  cases v with
  | String s =>
    rw [as_bytes_String, encode_string_eq]
    have := natToDecBytes_ne_nil s.bytes.length
    cases hc : natToDecBytes s.bytes.length with
    | nil => exact absurd hc this
    | cons a t =>
      simp only [List.cons_append, List.length_cons, List.length_append]
      omega
  | Int i =>
    rw [as_bytes_Int, encode_int]
    have := natToDecBytes_ne_nil i.natAbs
    rw [intToDecBytes]
    by_cases hneg : i < 0 <;> simp [hneg]
  | List l =>
    rw [as_bytes_List]
    simp
  | Dict d =>
    rw [as_bytes_Dict]
    simp

theorem goodItem_String (s : ByteString) :
    goodItem (.String s) = true ↔ s.bytes.length < 2 ^ 63 := by
  rw [goodItem]
  simp

theorem goodItem_Int (i : Int) :
    goodItem (.Int i) = true ↔ -(2 ^ 63) ≤ i ∧ i < 2 ^ 63 := by
  rw [goodItem]
  simp

theorem goodItem_List (l : List BencodeItem) :
    goodItem (.List l) = true ↔ goodItems l = true := by
  rw [goodItem]

theorem goodItem_Dict (d : List (List Nat × BencodeItem)) :
    goodItem (.Dict d) = true ↔ d ≠ [] ∧ goodPairs d = true := by
  rw [goodItem]
  simp [List.isEmpty_iff]

theorem goodItems_cons (x : BencodeItem) (xs : List BencodeItem) :
    goodItems (x :: xs) = true ↔ goodItem x = true ∧ goodItems xs = true := by
  rw [goodItems]
  simp

theorem goodPairs_cons (k : List Nat) (v : BencodeItem) (ps : List (List Nat × BencodeItem)) :
    goodPairs ((k, v) :: ps) = true ↔
      (validUtf8 k = true ∧ k.length < 2 ^ 63) ∧ goodItem v = true ∧ goodPairs ps = true := by
  rw [goodPairs]
  simp [goodKey, and_assoc]

theorem sizeOf_mem_list {x : BencodeItem} {xs : List BencodeItem} (h : x ∈ xs) :
    sizeOf x < sizeOf (BencodeItem.List xs) := by
  have := List.sizeOf_lt_of_mem h
  simp only [BencodeItem.List.sizeOf_spec]
  omega

theorem sizeOf_mem_dict {p : List Nat × BencodeItem} {ps : List (List Nat × BencodeItem)}
    (h : p ∈ ps) : sizeOf p.2 < sizeOf (BencodeItem.Dict ps) := by
  have h1 := List.sizeOf_lt_of_mem h
  obtain ⟨k, v⟩ := p
  simp only [BencodeItem.Dict.sizeOf_spec, Prod.mk.sizeOf_spec] at h1 ⊢
  omega

/-- Reading a string whose bytes are the canonical encoding of `k` followed
by anything returns exactly `k` and the continuation. -/
theorem read_string_enc (k : List Nat) (hk : k.length < 2 ^ 63) (x : List Nat) :
    read_string (encode_string (ByteString.mk k) ++ x) = .ok (⟨k⟩, x) := by
  rw [encode_string_eq, List.append_assoc, List.cons_append, read_string_spec _ _ hk,
    if_pos (by simp)]
  simp

/-- The list-element loop, run on the concatenated encodings of `xs`
followed by a terminator, returns exactly `xs`. -/
theorem read_list_loop_items (xs : List BencodeItem)
    (IHx : ∀ x ∈ xs, ∀ (rest : List Nat) (fuel : Nat), 3 * (as_bytes x).length ≤ fuel →
      parse_bytes fuel (as_bytes x ++ rest) = .ok (x, rest)) :
    ∀ (rest : List Nat) (fuel : Nat), 3 * (encode_items xs).length + 4 ≤ fuel →
    read_list_loop fuel (encode_items xs ++ c.M_END :: rest) = .ok (xs, rest) := by
  induction xs with
  | nil =>
    intro rest fuel hfuel
    obtain ⟨f, rfl⟩ : ∃ f, fuel = f + 1 := ⟨fuel - 1, by omega⟩
    rw [encode_items, List.nil_append, read_list_loop, if_pos rfl]
  | cons x xs IH =>
    intro rest fuel hfuel
    rw [encode_items_cons] at hfuel ⊢
    have hx2 := as_bytes_length x
    rw [List.length_append] at hfuel
    obtain ⟨f, rfl⟩ : ∃ f, fuel = f + 1 := ⟨fuel - 1, by omega⟩
    obtain ⟨hb, tl, habx, hbne⟩ := as_bytes_head x
    rw [List.append_assoc, habx, List.cons_append, read_list_loop, if_neg hbne,
      ← List.cons_append, ← habx]
    have h1 := IHx x (List.mem_cons_self x xs) (encode_items xs ++ c.M_END :: rest) f (by omega)
    have h2 := IH (fun y hy => IHx y (List.mem_cons_of_mem x hy)) rest f (by omega)
    simp only [h1, h2]

/-- The dict-pair loop, run on the concatenated encodings of the pairs
`ps` followed by a terminator, returns exactly `ps` in order. -/
theorem read_dict_loop_pairs (ps : List (List Nat × BencodeItem))
    (IHv : ∀ p ∈ ps, ∀ (rest : List Nat) (fuel : Nat), 3 * (as_bytes p.2).length ≤ fuel →
      parse_bytes fuel (as_bytes p.2 ++ rest) = .ok (p.2, rest))
    (hgood : goodPairs ps = true) (hne : ps ≠ []) :
    ∀ (rest : List Nat) (fuel : Nat), 3 * (encode_pairs ps).length + 4 ≤ fuel →
    read_dict_loop fuel (encode_pairs ps ++ c.M_END :: rest) = .ok (ps, rest) := by
  induction ps with
  | nil => exact absurd rfl hne
  | cons p ps IH =>
    obtain ⟨k, v⟩ := p
    obtain ⟨⟨hutf, hklen⟩, hgv, hgps⟩ := (goodPairs_cons k v ps).mp hgood
    intro rest fuel hfuel
    rw [encode_pairs_cons] at hfuel
    have hv2 := as_bytes_length v
    rw [List.length_append, List.length_append] at hfuel
    obtain ⟨f, rfl⟩ : ∃ f, fuel = f + 1 := ⟨fuel - 1, by omega⟩
    have hv : parse_bytes f (as_bytes v ++ (encode_pairs ps ++ c.M_END :: rest)) =
        .ok (v, encode_pairs ps ++ c.M_END :: rest) :=
      IHv (k, v) (List.mem_cons_self _ _) _ f (by dsimp only; omega)
    rw [encode_pairs_cons, List.append_assoc, List.append_assoc, read_dict_loop,
      read_string_enc k hklen _]
    simp only [string_try_from, hutf, if_true, hv]
    cases ps with
    | nil => simp [encode_pairs]
    | cons p2 ps2 =>
      obtain ⟨k2, v2⟩ := p2
      obtain ⟨hb2, tl2, henc2, hdig2⟩ := encode_string_head (ByteString.mk k2)
      rw [isDigit_iff] at hdig2
      have hhead : (encode_pairs ((k2, v2) :: ps2) ++ c.M_END :: rest).head? = some hb2 := by
        rw [encode_pairs_cons, henc2]
        simp
      have h2 := IH (fun y hy => IHv y (List.mem_cons_of_mem _ hy)) hgps (by simp) rest f
        (by omega)
      rw [if_neg (by rw [hhead]; simp only [Option.some.injEq, M_END_eq]; omega)]
      simp only [h2]

theorem goodItems_mem : ∀ (xs : List BencodeItem), goodItems xs = true →
    ∀ x ∈ xs, goodItem x = true := by
  intro xs
  induction xs with
  | nil => intro _ x hx; exact absurd hx (by simp)
  | cons y ys IH =>
    intro h x hx
    obtain ⟨h1, h2⟩ := (goodItems_cons y ys).mp h
    rcases List.mem_cons.mp hx with hx | hx
    · exact hx ▸ h1
    · exact IH h2 x hx

theorem goodPairs_mem : ∀ (ps : List (List Nat × BencodeItem)), goodPairs ps = true →
    ∀ p ∈ ps, goodItem p.2 = true := by
  intro ps
  induction ps with
  | nil => intro _ p hp; exact absurd hp (by simp)
  | cons q qs IH =>
    intro h p hp
    obtain ⟨k, v⟩ := q
    obtain ⟨-, h2, h3⟩ := (goodPairs_cons k v qs).mp h
    rcases List.mem_cons.mp hp with hp | hp
    · rw [hp]
      exact h2
    · exact IH h3 p hp

/-- Parsing the encoding of a canonical (`goodItem`) value, followed by any
continuation, returns exactly that value and the continuation — given any
fuel of at least three per encoded byte. -/
theorem parse_as_bytes_aux : ∀ (N : Nat) (v : BencodeItem), sizeOf v ≤ N →
    goodItem v = true →
    ∀ (rest : List Nat) (fuel : Nat), 3 * (as_bytes v).length ≤ fuel →
    parse_bytes fuel (as_bytes v ++ rest) = .ok (v, rest) := by
  intro N
  induction N with
  | zero =>
    intro v hN
    exact absurd hN (by cases v <;> simp)
  | succ N IHN =>
    intro v hN hgood rest fuel hfuel
    cases v with
    | String s =>
      rw [goodItem_String] at hgood
      have h2 := as_bytes_length (.String s)
      obtain ⟨f, rfl⟩ : ∃ f, fuel = f + 1 := ⟨fuel - 1, by omega⟩
      rw [as_bytes_String, encode_string_eq, List.append_assoc, List.cons_append]
      obtain ⟨a, t, ht⟩ : ∃ a t, natToDecBytes s.bytes.length = a :: t := by
        cases hc : natToDecBytes s.bytes.length with
        | nil => exact absurd hc (natToDecBytes_ne_nil _)
        | cons a t => exact ⟨a, t, rfl⟩
      have ha := natToDecBytes_head _ a (by rw [ht]; rfl)
      rw [ht, List.cons_append, parse_bytes_digit f a _ (by rw [isDigit_iff]; omega),
        ← List.cons_append, ← ht]
      have hrs := read_string_spec s.bytes.length (s.bytes ++ rest) hgood
      rw [if_pos (by simp)] at hrs
      simp only [hrs, List.take_left, List.drop_left]
    | Int i =>
      rw [goodItem_Int] at hgood
      have h2 := as_bytes_length (.Int i)
      obtain ⟨f, rfl⟩ : ∃ f, fuel = f + 1 := ⟨fuel - 1, by omega⟩
      rw [as_bytes_Int, encode_int]
      simp only [List.cons_append, List.append_assoc, List.singleton_append, List.nil_append]
      have hri : read_int (c.M_INT :: (intToDecBytes i ++ c.M_END :: rest)) = .ok (i, rest) := by
        rw [read_int, List.tail_cons]
        exact read_int_loop_int i hgood.1 hgood.2 rest
      simp only [parse_bytes_int, hri]
    | List xs =>
      rw [goodItem_List] at hgood
      have hlen : (as_bytes (.List xs)).length = (encode_items xs).length + 2 := by
        rw [as_bytes_List]
        simp
      rw [hlen] at hfuel
      obtain ⟨f, rfl⟩ : ∃ f, fuel = f + 2 := ⟨fuel - 2, by omega⟩
      rw [as_bytes_List]
      simp only [List.cons_append, List.append_assoc, List.singleton_append, List.nil_append]
      rw [show f + 2 = (f + 1) + 1 from rfl, parse_bytes_list, read_list, List.tail_cons]
      have hloop := read_list_loop_items xs
        (fun x hx r fl hfl =>
          IHN x (by have := sizeOf_mem_list hx; omega) (goodItems_mem xs hgood x hx) r fl hfl)
        rest f (by omega)
      simp only [hloop]
    | Dict ps =>
      rw [goodItem_Dict] at hgood
      obtain ⟨hne, hgp⟩ := hgood
      have hlen : (as_bytes (.Dict ps)).length = (encode_pairs ps).length + 2 := by
        rw [as_bytes_Dict]
        simp
      rw [hlen] at hfuel
      obtain ⟨f, rfl⟩ : ∃ f, fuel = f + 2 := ⟨fuel - 2, by omega⟩
      rw [as_bytes_Dict]
      simp only [List.cons_append, List.append_assoc, List.singleton_append, List.nil_append]
      rw [show f + 2 = (f + 1) + 1 from rfl, parse_bytes_dict, read_dict]
      simp only [List.tail_cons]
      obtain ⟨p1, ps1, rfl⟩ : ∃ p1 ps1, ps = p1 :: ps1 := by
        cases ps with
        | nil => exact absurd rfl hne
        | cons p1 ps1 => exact ⟨p1, ps1, rfl⟩
      obtain ⟨k1, v1⟩ := p1
      obtain ⟨hb1, tl1, henc1, hdig1⟩ := encode_string_head (ByteString.mk k1)
      rw [isDigit_iff] at hdig1
      have hhead : (encode_pairs ((k1, v1) :: ps1) ++ c.M_END :: rest).head? = some hb1 := by
        rw [encode_pairs_cons, henc1]
        simp
      rw [if_neg (by rw [hhead]; simp only [Option.some.injEq, M_END_eq]; omega)]
      have hloop := read_dict_loop_pairs ((k1, v1) :: ps1)
        (fun p hp r fl hfl =>
          IHN p.2 (by have := sizeOf_mem_dict hp; omega)
            (goodPairs_mem _ hgp p hp) r fl hfl)
        hgp hne rest f (by omega)
      simp only [hloop]

/-- Wrapper: parsing an encoded canonical value with the fuel `decode`
supplies. -/
theorem parse_as_bytes (v : BencodeItem) (hgood : goodItem v = true) (rest : List Nat)
    (fuel : Nat) (hfuel : 3 * (as_bytes v).length ≤ fuel) :
    parse_bytes fuel (as_bytes v ++ rest) = .ok (v, rest) :=
  parse_as_bytes_aux (sizeOf v) v le_rfl hgood rest fuel hfuel

/-- Decoding the encoding of a canonical value, with any trailing bytes,
yields exactly that value. -/
theorem decode_as_bytes (v : BencodeItem) (hgood : goodItem v = true) (rest : List Nat) :
    decode (as_bytes v ++ rest) = .ok v := by
  rw [decode_eq, parse_as_bytes v hgood rest _ (by simp [List.length_append]; omega)]
  rfl

/-! ## Trailing bytes: extension and fuel monotonicity -/

theorem take_payload_ext : ∀ (n : Nat) (l x ss rr : List Nat),
    take_payload n l = .ok (ss, rr) → take_payload n (l ++ x) = .ok (ss, rr ++ x) := by
  intro n
  induction n with
  | zero =>
    intro l x ss rr h
    simp only [take_payload, Except.ok.injEq, Prod.mk.injEq] at h
    rw [take_payload, h.1, h.2]
  | succ n IH =>
    intro l x ss rr h
    cases l with
    | nil => exact absurd h (by rw [take_payload]; simp)
    | cons b t =>
      rw [take_payload] at h
      cases htp : take_payload n t with
      | error e =>
        rw [htp] at h
        exact absurd h (by simp)
      | ok p =>
        obtain ⟨s1, r1⟩ := p
        rw [htp] at h
        simp only [Except.ok.injEq, Prod.mk.injEq] at h
        rw [List.cons_append, take_payload, IH t x s1 r1 htp, ← h.1, ← h.2]

theorem read_string_loop_ext : ∀ (l lb x : List Nat) (sb : ByteString) (rr : List Nat),
    read_string_loop lb l = .ok (sb, rr) →
    read_string_loop lb (l ++ x) = .ok (sb, rr ++ x) := by
  intro l
  induction l with
  | nil =>
    intro lb x sb rr h
    exact absurd h (by rw [read_string_loop]; simp)
  | cons b t IH =>
    intro lb x sb rr h
    rw [List.cons_append]
    rw [read_string_loop] at h ⊢
    by_cases h1 : b = c.M_COLON
    · rw [if_pos h1] at h ⊢
      cases ha : ascii_bytes_to_int lb with
      | error e =>
        rw [ha] at h
        exact absurd h (by simp)
      | ok n =>
        rw [ha] at h
        simp only [] at h ⊢
        cases htp : take_payload n.toNat t with
        | error e =>
          rw [htp] at h
          exact absurd h (by simp)
        | ok p =>
          obtain ⟨s1, r1⟩ := p
          rw [htp] at h
          simp only [Except.ok.injEq, Prod.mk.injEq] at h
          rw [take_payload_ext n.toNat t x s1 r1 htp, ← h.1, ← h.2]
    · rw [if_neg h1] at h ⊢
      by_cases h2 : isDigit b = true
      · rw [if_pos h2] at h ⊢
        by_cases h3 : lb = [] ∧ b = c.M_0
        · rw [if_pos h3] at h ⊢
          cases t with
          | nil =>
            exact absurd h (by simp)
          | cons tb tt =>
            simp only [List.cons_append, List.head?_cons] at h ⊢
            by_cases h4 : tb = c.M_COLON
            · rw [if_pos (by rw [h4])] at h
              rw [if_pos (by rw [h4])]
              simp only [List.cons_append, List.tail_cons, Except.ok.injEq,
                Prod.mk.injEq] at h ⊢
              exact ⟨h.1, by rw [← h.2]⟩
            · rw [if_neg (by simpa using h4)] at h
              exact absurd h (by simp)
        · rw [if_neg h3] at h ⊢
          cases t with
          | nil => exact absurd h (by rw [read_string_loop]; simp)
          | cons tb tt => exact IH (lb ++ [b]) x sb rr h
      · rw [if_neg h2] at h
        exact absurd h (by simp)

theorem read_string_ext (l x : List Nat) (sb : ByteString) (rr : List Nat)
    (h : read_string l = .ok (sb, rr)) : read_string (l ++ x) = .ok (sb, rr ++ x) :=
  read_string_loop_ext l [] x sb rr h

theorem read_int_loop_ext : ∀ (l buff x : List Nat) (i : Int) (rr : List Nat),
    read_int_loop buff l = .ok (i, rr) →
    read_int_loop buff (l ++ x) = .ok (i, rr ++ x) := by
  intro l
  induction l with
  | nil =>
    intro buff x i rr h
    exact absurd h (by rw [read_int_loop]; simp)
  | cons b t IH =>
    intro buff x i rr h
    rw [List.cons_append]
    rw [read_int_loop] at h ⊢
    by_cases h1 : buff = [] ∧ b = c.M_END
    · rw [if_pos h1] at h
      exact absurd h (by simp)
    · rw [if_neg h1] at h ⊢
      by_cases h2 : b = c.M_END
      · rw [if_pos h2] at h ⊢
        cases ha : ascii_bytes_to_int buff with
        | error e =>
          rw [ha] at h
          exact absurd h (by simp)
        | ok j =>
          rw [ha] at h
          simp only [Except.ok.injEq, Prod.mk.injEq] at h
          simp only []
          rw [h.1, h.2]
      · rw [if_neg h2] at h ⊢
        cases t with
        | nil =>
          by_cases h3 : b = c.M_DASH ∧ ([] : List Nat).head? = some c.M_0
          · rw [if_pos h3] at h
            exact absurd h (by simp)
          · rw [if_neg h3] at h
            by_cases h4 : buff = [] ∧ b = c.M_0 ∧ ([] : List Nat).head? ≠ some c.M_END
            · rw [if_pos h4] at h
              exact absurd h (by simp)
            · rw [if_neg h4] at h
              exact absurd h (by rw [read_int_loop]; simp)
        | cons tb tt =>
          simp only [List.cons_append, List.head?_cons] at h ⊢
          by_cases h3 : b = c.M_DASH ∧ some tb = some c.M_0
          · rw [if_pos h3] at h
            exact absurd h (by simp)
          · rw [if_neg h3] at h ⊢
            by_cases h4 : buff = [] ∧ b = c.M_0 ∧ some tb ≠ some c.M_END
            · rw [if_pos h4] at h
              exact absurd h (by simp)
            · rw [if_neg h4] at h ⊢
              rw [← List.cons_append]
              exact IH (buff ++ [b]) x i rr h

theorem read_int_ext (l x : List Nat) (i : Int) (rr : List Nat)
    (h : read_int l = .ok (i, rr)) : read_int (l ++ x) = .ok (i, rr ++ x) := by
  cases l with
  | nil => exact absurd h (by rw [read_int]; simp [read_int_loop])
  | cons b t =>
    rw [read_int, List.tail_cons] at h
    rw [List.cons_append, read_int, List.tail_cons]
    exact read_int_loop_ext t [] x i rr h

theorem read_dict_loop_nil (f : Nat) :
    read_dict_loop f [] = .error .BytestreamEnded := by
  cases f with
  | zero => rw [read_dict_loop]
  | succ g =>
    rw [read_dict_loop]
    rfl

theorem read_list_loop_nil (f : Nat) :
    read_list_loop f [] = .error .BytestreamEnded := by
  cases f with
  | zero => rw [read_list_loop]
  | succ g => rw [read_list_loop]

/-- Successful parses survive appending trailing bytes and increasing the
fuel: the five mutually recursive readers, jointly. -/
theorem parse_bytes_ext_mono : ∀ fuel : Nat,
    (∀ (l s : List Nat) (f2 : Nat) (v : BencodeItem) (r : List Nat), fuel ≤ f2 →
      parse_bytes fuel l = .ok (v, r) → parse_bytes f2 (l ++ s) = .ok (v, r ++ s)) ∧
    (∀ (l s : List Nat) (f2 : Nat) (d : List (List Nat × BencodeItem)) (r : List Nat),
      fuel ≤ f2 → read_dict fuel l = .ok (d, r) → read_dict f2 (l ++ s) = .ok (d, r ++ s)) ∧
    (∀ (l s : List Nat) (f2 : Nat) (d : List (List Nat × BencodeItem)) (r : List Nat),
      fuel ≤ f2 → read_dict_loop fuel l = .ok (d, r) →
      read_dict_loop f2 (l ++ s) = .ok (d, r ++ s)) ∧
    (∀ (l s : List Nat) (f2 : Nat) (xs : List BencodeItem) (r : List Nat), fuel ≤ f2 →
      read_list fuel l = .ok (xs, r) → read_list f2 (l ++ s) = .ok (xs, r ++ s)) ∧
    (∀ (l s : List Nat) (f2 : Nat) (xs : List BencodeItem) (r : List Nat), fuel ≤ f2 →
      read_list_loop fuel l = .ok (xs, r) → read_list_loop f2 (l ++ s) = .ok (xs, r ++ s)) := by
  intro fuel
  induction fuel with
  | zero =>
    refine ⟨fun l s f2 v r _ h => absurd h (by rw [parse_bytes]; simp),
      fun l s f2 d r _ h => absurd h (by rw [read_dict]; simp),
      fun l s f2 d r _ h => absurd h (by rw [read_dict_loop]; simp),
      fun l s f2 xs r _ h => absurd h (by rw [read_list]; simp),
      fun l s f2 xs r _ h => absurd h (by rw [read_list_loop]; simp)⟩
  | succ f IH =>
    obtain ⟨IHp, IHd, IHdl, IHl, IHll⟩ := IH
    have hsucc : ∀ f2 : Nat, f + 1 ≤ f2 → ∃ g, f2 = g + 1 ∧ f ≤ g :=
      fun f2 h => ⟨f2 - 1, by omega, by omega⟩
    refine ⟨?_, ?_, ?_, ?_, ?_⟩
    · -- parse_bytes
      intro l s f2 v r hle h
      obtain ⟨g, rfl, hfg⟩ := hsucc f2 hle
      cases l with
      | nil => exact absurd h (by rw [parse_bytes]; simp)
      | cons b t =>
        rw [parse_bytes] at h
        rw [List.cons_append, parse_bytes]
        by_cases h1 : b = c.M_DICT
        · rw [if_pos h1] at h ⊢
          cases hd : read_dict f (b :: t) with
          | error e =>
            rw [hd] at h
            exact absurd h (by simp)
          | ok p =>
            obtain ⟨dd, r1⟩ := p
            rw [hd] at h
            simp only [Except.ok.injEq, Prod.mk.injEq] at h
            have hext := IHd (b :: t) s g dd r1 hfg hd
            rw [List.cons_append] at hext
            rw [hext]
            simp only []
            rw [h.1, h.2]
        · rw [if_neg h1] at h ⊢
          by_cases h2 : b = c.M_INT
          · rw [if_pos h2] at h ⊢
            cases hri : read_int (b :: t) with
            | error e =>
              rw [hri] at h
              exact absurd h (by simp)
            | ok p =>
              obtain ⟨i, r1⟩ := p
              rw [hri] at h
              simp only [Except.ok.injEq, Prod.mk.injEq] at h
              have hext := read_int_ext (b :: t) s i r1 hri
              rw [List.cons_append] at hext
              rw [hext]
              simp only []
              rw [h.1, h.2]
          · rw [if_neg h2] at h ⊢
            by_cases h3 : b = c.M_LIST
            · rw [if_pos h3] at h ⊢
              cases hrl : read_list f (b :: t) with
              | error e =>
                rw [hrl] at h
                exact absurd h (by simp)
              | ok p =>
                obtain ⟨xs1, r1⟩ := p
                rw [hrl] at h
                simp only [Except.ok.injEq, Prod.mk.injEq] at h
                have hext := IHl (b :: t) s g xs1 r1 hfg hrl
                rw [List.cons_append] at hext
                rw [hext]
                simp only []
                rw [h.1, h.2]
            · rw [if_neg h3] at h ⊢
              by_cases h4 : isDigit b = true
              · rw [if_pos h4] at h ⊢
                cases hrs : read_string (b :: t) with
                | error e =>
                  rw [hrs] at h
                  exact absurd h (by simp)
                | ok p =>
                  obtain ⟨sb, r1⟩ := p
                  rw [hrs] at h
                  simp only [Except.ok.injEq, Prod.mk.injEq] at h
                  have hext := read_string_ext (b :: t) s sb r1 hrs
                  rw [List.cons_append] at hext
                  rw [hext]
                  simp only []
                  rw [h.1, h.2]
              · rw [if_neg h4] at h ⊢
                by_cases h5 : b = c.M_END
                · rw [if_pos h5] at h
                  exact absurd h (by simp)
                · rw [if_neg h5] at h
                  exact absurd h (by simp)
    · -- read_dict
      intro l s f2 d r hle h
      obtain ⟨g, rfl, hfg⟩ := hsucc f2 hle
      rw [read_dict] at h
      rw [read_dict]
      cases l with
      | nil =>
        simp only [List.tail_nil] at h
        rw [if_neg (by simp)] at h
        rw [read_dict_loop_nil] at h
        exact absurd h (by simp)
      | cons b t =>
        simp only [List.cons_append, List.tail_cons] at h ⊢
        by_cases hh : t.head? = some c.M_END
        · rw [if_pos hh] at h
          simp only [Except.ok.injEq, Prod.mk.injEq] at h
          have hh2 : (t ++ s).head? = some c.M_END := by
            cases t with
            | nil => simp at hh
            | cons tb tt => simpa using hh
          rw [if_pos hh2, ← h.1, ← h.2]
        · rw [if_neg hh] at h
          cases t with
          | nil =>
            rw [read_dict_loop_nil] at h
            exact absurd h (by simp)
          | cons tb tt =>
            rw [if_neg (by simpa using hh)]
            exact IHdl (tb :: tt) s g d r hfg h
    · -- read_dict_loop
      intro l s f2 d r hle h
      obtain ⟨g, rfl, hfg⟩ := hsucc f2 hle
      rw [read_dict_loop] at h
      rw [read_dict_loop]
      cases hrs : read_string l with
      | error e =>
        rw [hrs] at h
        exact absurd h (by simp)
      | ok p =>
        obtain ⟨sb, r1⟩ := p
        rw [hrs] at h
        rw [read_string_ext l s sb r1 hrs]
        simp only [] at h ⊢
        cases hst : string_try_from sb with
        | none =>
          rw [hst] at h
          exact absurd h (by simp)
        | some key =>
          rw [hst] at h
          simp only [] at h ⊢
          cases hp : parse_bytes f r1 with
          | error e =>
            rw [hp] at h
            exact absurd h (by simp)
          | ok q =>
            obtain ⟨v, r2⟩ := q
            rw [hp] at h
            have hpe := IHp r1 s g v r2 hfg hp
            rw [hpe]
            simp only [] at h ⊢
            by_cases hr2 : r2.head? = some c.M_END
            · rw [if_pos hr2] at h
              simp only [Except.ok.injEq, Prod.mk.injEq] at h
              obtain ⟨a2, t2, rfl⟩ : ∃ a2 t2, r2 = a2 :: t2 := by
                cases r2 with
                | nil => simp at hr2
                | cons a2 t2 => exact ⟨a2, t2, rfl⟩
              rw [if_pos (by simpa using hr2), ← h.1, ← h.2]
              simp
            · rw [if_neg hr2] at h
              cases hrec : read_dict_loop f r2 with
              | error e =>
                rw [hrec] at h
                exact absurd h (by simp)
              | ok q2 =>
                obtain ⟨ps, r3⟩ := q2
                rw [hrec] at h
                simp only [Except.ok.injEq, Prod.mk.injEq] at h
                cases r2 with
                | nil =>
                  rw [read_dict_loop_nil] at hrec
                  exact absurd hrec (by simp)
                | cons a2 t2 =>
                  rw [if_neg (by simpa using hr2)]
                  have hext := IHdl (a2 :: t2) s g ps r3 hfg hrec
                  rw [List.cons_append] at hext
                  rw [List.cons_append, hext]
                  simp only []
                  rw [h.1, h.2]
    · -- read_list
      intro l s f2 xs r hle h
      obtain ⟨g, rfl, hfg⟩ := hsucc f2 hle
      rw [read_list] at h
      rw [read_list]
      cases l with
      | nil =>
        simp only [List.tail_nil] at h
        rw [read_list_loop_nil] at h
        exact absurd h (by simp)
      | cons b t =>
        simp only [List.cons_append, List.tail_cons] at h ⊢
        exact IHll t s g xs r hfg h
    · -- read_list_loop
      intro l s f2 xs r hle h
      obtain ⟨g, rfl, hfg⟩ := hsucc f2 hle
      cases l with
      | nil => exact absurd h (by rw [read_list_loop]; simp)
      | cons b t =>
        rw [read_list_loop] at h
        rw [List.cons_append, read_list_loop]
        by_cases h1 : b = c.M_END
        · rw [if_pos h1] at h ⊢
          simp only [Except.ok.injEq, Prod.mk.injEq] at h
          rw [← h.1, ← h.2]
        · rw [if_neg h1] at h ⊢
          cases hp : parse_bytes f (b :: t) with
          | error e =>
            rw [hp] at h
            exact absurd h (by simp)
          | ok p =>
            obtain ⟨v, r1⟩ := p
            rw [hp] at h
            have hpe := IHp (b :: t) s g v r1 hfg hp
            rw [List.cons_append] at hpe
            rw [hpe]
            simp only [] at h ⊢
            cases hrec : read_list_loop f r1 with
            | error e =>
              rw [hrec] at h
              exact absurd h (by simp)
            | ok q =>
              obtain ⟨xs1, r2⟩ := q
              rw [hrec] at h
              simp only [Except.ok.injEq, Prod.mk.injEq] at h
              rw [IHll r1 s g xs1 r2 hfg hrec]
              simp only []
              rw [h.1, h.2]

/-! ## Claim theorems -/

/-- C1: the claimed round-trip identity fails on the code.  The value
`v = List [List [Dict []], Int 1]` is producible by the decoder (from the
bytes "lldei1ee", which it parses in full), but decoding the encoder's
output "lldeei1ee" for `v` yields `List [List [Dict []]]`, not `v`: the
empty dict's terminator is left unconsumed by `read_dict`, so the stray
`e` closes the enclosing containers one level early and the trailing
sibling `Int 1` is dropped. -/
theorem c1_roundtrip_fails_on_nested_empty_dict :
    decode (s2b "lldei1ee") = .ok (.List [.List [.Dict []], .Int 1]) ∧
    as_bytes (.List [.List [.Dict []], .Int 1]) = s2b "lldeei1ee" ∧
    decode (s2b "lldeei1ee") = .ok (.List [.List [.Dict []]]) ∧
    BencodeItem.List [.List [.Dict []]] ≠ .List [.List [.Dict []], .Int 1] := by
  refine ⟨rfl, ?_, rfl, by simp⟩
  simp [as_bytes, encode_list, encode_dict, encode_items, encode_pairs, encode_int,
    encode_string, intToDecBytes, natToDecBytes, natDecAux, s2b]

/-- C2: contrary to the claim, the dict reader does NOT consume the `e`
terminator of an empty dict: after parsing "de" the remaining byte
sequence is still [0x65] (the cursor stands ON the terminator, not past
it), and inside an enclosing list the stray terminator ends the list, so
"ldei1ee" decodes to `List [Dict []]` instead of `List [Dict [], Int 1]`.
(The fuel 9 is the amount `decode` supplies for a 2-byte input.) -/
theorem c2_empty_dict_terminator_not_consumed :
    parse_bytes 9 (s2b "de") = .ok (.Dict [], [0x65]) ∧
    decode (s2b "ldei1ee") = .ok (.List [.Dict []]) :=
  ⟨rfl, rfl⟩

/-- C3: truncated inputs do not always fail with `BytestreamEnded`.  The
claim's own example "i0" (a proper prefix of the valid "i0e") fails with
`IntParseLeadingZero` because `read_int` treats an exhausted peek after a
leading `0` like a non-terminator byte, and "lde" (a proper prefix of
"ldee", the encoding of `List [Dict []]`) even decodes successfully
because of the unconsumed empty-dict terminator.  The claim's other two
examples do return `BytestreamEnded`. -/
theorem c3_truncated_error_kinds :
    decode (s2b "d3:cow3:moo") = .error .BytestreamEnded ∧
    decode (s2b "5:abc") = .error .BytestreamEnded ∧
    decode (s2b "i0") = .error .IntParseLeadingZero ∧
    decode (s2b "lde") = .ok (.List [.Dict []]) :=
  ⟨rfl, rfl, rfl, rfl⟩

/-- C4: the malformed-integer inputs fail exactly as claimed: "i-0e" with
the negative-zero kind, "i00e" and "i01e" with the leading-zero kind (both
are `MalformedInteger` kinds in the spec's taxonomy), and "ie" with
`UnexpectedEndMarker` (the spec's `UnexpectedTerminator`); none yields a
value. -/
theorem c4_malformed_integer_errors :
    decode (s2b "i-0e") = .error .IntParseNegativeZero ∧
    decode (s2b "i00e") = .error .IntParseLeadingZero ∧
    decode (s2b "i01e") = .error .IntParseLeadingZero ∧
    decode (s2b "ie") = .error .UnexpectedEndMarker :=
  ⟨rfl, rfl, rfl, rfl⟩

/-- C5 (counterexample): for the decimal length prefix 2^63 (no leading
zeros) and the empty payload — fewer than 2^63 bytes follow the colon —
the claim demands `BytestreamEnded`, but the code fails with
`IntParseInt` (`MalformedInteger`) because the length does not fit in an
i64. -/
theorem c5_cex_overflowing_length :
    decode (natToDecBytes (2 ^ 63) ++ [c.M_COLON]) = .error .IntParseInt ∧
    BencodeError.IntParseInt ≠ BencodeError.BytestreamEnded :=
  ⟨rfl, by simp⟩

/-- C5 (amended): for every decimal length prefix `L` with no leading
zeros that fits in an i64 (`L < 2^63`) and every byte sequence `p`,
decoding `L:p` returns a `ByteString` of exactly the first `L` bytes of
`p` verbatim when at least `L` bytes follow the colon, and fails with
`BytestreamEnded` otherwise. -/
theorem c5_string_reader (L : Nat) (p : List Nat) (hL : L < 2 ^ 63) :
    (L ≤ p.length → decode (natToDecBytes L ++ c.M_COLON :: p) = .ok (.String ⟨p.take L⟩)) ∧
    (p.length < L → decode (natToDecBytes L ++ c.M_COLON :: p) = .error .BytestreamEnded) := by
  obtain ⟨a, t, ht⟩ : ∃ a t, natToDecBytes L = a :: t := by
    cases hc : natToDecBytes L with
    | nil => exact absurd hc (natToDecBytes_ne_nil _)
    | cons a t => exact ⟨a, t, rfl⟩
  have ha := natToDecBytes_head L a (by rw [ht]; rfl)
  have hdig : isDigit a = true := by rw [isDigit_iff]; omega
  have hdisp : decode (natToDecBytes L ++ c.M_COLON :: p) =
      (match read_string (natToDecBytes L ++ c.M_COLON :: p) with
        | .ok (s, r) => (Except.ok (BencodeItem.String s, r) :
            Except BencodeError (BencodeItem × List Nat))
        | .error e => .error e).map Prod.fst := by
    rw [decode_eq, ht, List.cons_append, parse_bytes_digit _ a _ hdig, ← List.cons_append,
      ← ht]
  rw [read_string_spec L p hL] at hdisp
  constructor
  · intro hle
    rw [hdisp, if_pos hle]
    rfl
  · intro hgt
    rw [hdisp, if_neg (by omega)]
    rfl

/-- C5 (witness): the amended statement evaluated at L = 4, p = "spam". -/
theorem c5_witness :
    (4 : Nat) < 2 ^ 63 ∧
    ((4 ≤ (s2b "spam").length →
        decode (natToDecBytes 4 ++ c.M_COLON :: s2b "spam") =
          .ok (.String ⟨(s2b "spam").take 4⟩)) ∧
      ((s2b "spam").length < 4 →
        decode (natToDecBytes 4 ++ c.M_COLON :: s2b "spam") = .error .BytestreamEnded)) :=
  ⟨by norm_num, c5_string_reader 4 (s2b "spam") (by norm_num)⟩

/-- C6: (1) decoding a dict input whose first key's raw bytes `k` are not
valid UTF-8 fails with `DictKeyParse` (the spec's `DictKeyNotText`); the
key's canonical length prefix must fit in an i64 for the key to be read at
all.  (2) Order preservation: for every pair list `ps` (valid-text keys of
i64 length, canonical values, no empty dicts), the dict input whose bytes
contain the pairs in the order of `ps` decodes to exactly `Dict ps` — the
(key, value) pairs appear in the result in exactly the order the pairs
appear in the input bytes. -/
theorem c6_dict_key_validation_and_order :
    (∀ (k rest : List Nat), validUtf8 k = false → k.length < 2 ^ 63 →
      decode (c.M_DICT :: (natToDecBytes k.length ++ c.M_COLON :: k) ++ rest) =
        .error .DictKeyParse) ∧
    (∀ (ps : List (List Nat × BencodeItem)) (rest : List Nat),
      goodItem (.Dict ps) = true →
      decode (as_bytes (.Dict ps) ++ rest) = .ok (.Dict ps)) := by
  constructor
  · intro k rest hutf hklen
    rw [decode_eq]
    generalize hf :
      3 * (c.M_DICT :: (natToDecBytes k.length ++ c.M_COLON :: k) ++ rest).length + 2 = F
    obtain ⟨g, rfl⟩ : ∃ g, F = g + 1 + 1 := ⟨F - 2, by omega⟩
    rw [List.cons_append, parse_bytes_dict, read_dict]
    simp only [List.tail_cons]
    obtain ⟨a, t, ht⟩ : ∃ a t, natToDecBytes k.length = a :: t := by
      cases hc : natToDecBytes k.length with
      | nil => exact absurd hc (natToDecBytes_ne_nil _)
      | cons a t => exact ⟨a, t, rfl⟩
    have ha := natToDecBytes_head _ a (by rw [ht]; rfl)
    have hhead : ((natToDecBytes k.length ++ c.M_COLON :: k) ++ rest).head? = some a := by
      rw [ht]
      simp
    rw [if_neg (by rw [hhead]; simp only [Option.some.injEq, M_END_eq]; omega),
      read_dict_loop]
    have hrs : read_string ((natToDecBytes k.length ++ c.M_COLON :: k) ++ rest) =
        .ok (⟨k⟩, rest) := by
      rw [List.append_assoc, List.cons_append, read_string_spec _ _ hklen,
        if_pos (by simp)]
      simp
    simp only [hrs, string_try_from, hutf]
    rfl
  · intro ps rest hgood
    exact decode_as_bytes (.Dict ps) hgood rest

/-- C6 (witness): the first part evaluated at the non-UTF-8 key [0x80]
(input "d1:\x80"), the second at the two-pair dict
[("a", Int 1), ("b", Int 2)]. -/
theorem c6_witness :
    (validUtf8 [0x80] = false ∧ ([0x80] : List Nat).length < 2 ^ 63 ∧
      decode (c.M_DICT ::
          (natToDecBytes ([0x80] : List Nat).length ++ c.M_COLON :: [0x80]) ++ []) =
        .error .DictKeyParse) ∧
    (goodItem (.Dict [([0x61], .Int 1), ([0x62], .Int 2)]) = true ∧
      decode (as_bytes (.Dict [([0x61], .Int 1), ([0x62], .Int 2)]) ++ []) =
        .ok (.Dict [([0x61], .Int 1), ([0x62], .Int 2)])) := by
  have hg : goodItem (.Dict [([0x61], .Int 1), ([0x62], .Int 2)]) = true := by
    rw [goodItem_Dict]
    refine ⟨by simp, ?_⟩
    rw [goodPairs_cons]
    refine ⟨⟨by decide, by norm_num⟩, by rw [goodItem_Int]; norm_num, ?_⟩
    rw [goodPairs_cons]
    refine ⟨⟨by decide, by norm_num⟩, by rw [goodItem_Int]; norm_num, ?_⟩
    rw [goodPairs]
  exact ⟨⟨by decide, by norm_num,
      c6_dict_key_validation_and_order.1 [0x80] [] (by decide) (by norm_num)⟩,
    hg, c6_dict_key_validation_and_order.2 _ [] hg⟩

/-- C10: trailing bytes are silently ignored.  If a byte sequence `b`
decodes to `v`, then for every `s` the sequence `b ++ s` also decodes to
the same `v`: the decoder stops after one complete top-level value and
never rejects an input for not being fully consumed. -/
theorem c10_trailing_bytes_ignored (b s : List Nat) (v : BencodeItem)
    (h : decode b = .ok v) : decode (b ++ s) = .ok v := by
  rw [decode_eq] at h
  cases hp : parse_bytes (3 * b.length + 2 + 1) b with
  | error e =>
    rw [hp] at h
    exact absurd h (by simp [Except.map])
  | ok p =>
    obtain ⟨w, r⟩ := p
    rw [hp] at h
    simp only [Except.map, Except.ok.injEq] at h
    rw [decode_eq]
    have hext := (parse_bytes_ext_mono (3 * b.length + 2 + 1)).1 b s
      (3 * (b ++ s).length + 2 + 1) w r (by simp only [List.length_append]; omega) hp
    rw [hext]
    simp only [Except.map, Except.ok.injEq]
    exact h

/-- C10 (witness): the statement applied at b = "i5e", s = "XYZ". -/
theorem c10_witness :
    decode (s2b "i5e") = .ok (.Int 5) ∧ decode (s2b "i5e" ++ s2b "XYZ") = .ok (.Int 5) :=
  ⟨rfl, c10_trailing_bytes_ignored (s2b "i5e") (s2b "XYZ") (.Int 5) rfl⟩

/-- C7 (counterexample): the body "+5" is outside the claimed shape — it
starts with '+', which the claim says is rejected — yet decode("i+5e")
succeeds with Integer 5, because the reader delegates to Rust
str::parse::<i64>, which accepts a leading plus sign. -/
theorem c7_cex_plus_sign_accepted :
    decode (s2b "i+5e") = .ok (.Int 5) ∧ ¬ intBodyClaimed [0x2B, 0x35] ∧
    s2b "i+5e" = c.M_INT :: [0x2B, 0x35] ++ [c.M_END] :=
  ⟨rfl, by decide, by decide⟩

/-- C7 (amended): for every input `i` ++ body ++ `e` where body contains
no `e` byte, decode succeeds iff body is (claimed shape) an optional
single leading `-` followed by digits with no leading zeros, no "-0", and
a value fitting in a signed 64-bit integer, OR (code's extra leniency) a
single leading `+` followed by one or more digits — leading zeros allowed
after the `+` — whose value fits in an i64; every other body is rejected
with an error. -/
theorem c7_int_body_iff (body : List Nat) (hnoe : c.M_END ∉ body) :
    (∃ v, decode (c.M_INT :: body ++ [c.M_END]) = .ok v) ↔
      (intBodyClaimed body ∨ intBodyPlus body) := by
  have hdec : ∀ res, read_int_loop [] (body ++ [c.M_END]) = res →
      decode (c.M_INT :: body ++ [c.M_END]) =
        (match res with
          | .ok (i, _) => (Except.ok (BencodeItem.Int i) : Except BencodeError BencodeItem)
          | .error e => .error e) := by
    intro res hres
    rw [decode_eq]
    generalize 3 * (c.M_INT :: body ++ [c.M_END]).length + 2 = f
    rw [List.cons_append, parse_bytes_int, read_int, List.tail_cons, hres]
    cases res with
    | ok p =>
      obtain ⟨i, r⟩ := p
      rfl
    | error e => rfl
  constructor
  · rintro ⟨v, hv⟩
    cases hres : read_int_loop [] (body ++ [c.M_END]) with
    | error e =>
      rw [hdec _ hres] at hv
      exact absurd hv (by simp)
    | ok p =>
      obtain ⟨i, r⟩ := p
      obtain ⟨h1, -, h3, h4⟩ := read_int_loop_ok_facts body [] i r hnoe hres
      rw [List.nil_append, ascii_bytes_to_int] at h1
      by_cases hutf : validUtf8 body = true
      · rw [if_pos hutf] at h1
        cases hp : parseI64 body with
        | none =>
          rw [hp] at h1
          exact absurd h1 (by simp)
        | some j =>
          rcases parseI64_some body j hp with hc | hc | hc
          · obtain ⟨hdig, hne, hbound, -⟩ := hc
            exact Or.inl (Or.inl ⟨hne, hdig, (h3 rfl).2, by omega⟩)
          · obtain ⟨hh, ht, hdig, hbound, -⟩ := hc
            cases body with
            | nil => exact absurd hh (by simp)
            | cons b ts =>
              simp only [List.head?_cons, Option.some.injEq] at hh
              subst hh
              obtain ⟨hd1, -⟩ := (dashZeroFree_cons _ _).mp h4
              refine Or.inl (Or.inr ⟨by simp, by simpa using ht, by simpa using hdig,
                fun hcon => hd1 ⟨rfl, by simpa using hcon⟩, by simpa using hbound⟩)
          · obtain ⟨hh, ht, hdig, hbound, -⟩ := hc
            exact Or.inr ⟨hh, ht, hdig, by omega⟩
      · rw [if_neg hutf] at h1
        exact absurd h1 (by simp)
  · intro hshape
    have hascii : ∃ ival, ascii_bytes_to_int body = .ok ival ∧
        (body.head? = some c.M_0 → body = [c.M_0]) ∧ dashZeroFree body = true ∧
        body ≠ [] := by
      rcases hshape with hc | hc
      · rcases hc with hc | hc
        · obtain ⟨hne, hdig, hzero, hbound⟩ := hc
          refine ⟨(digitsToNat body : Int), ?_, hzero, dashZeroFree_of_digits body hdig, hne⟩
          rw [ascii_bytes_to_int,
            if_pos (validUtf8_of_ascii body fun b hb => isDigit_ascii b (hdig b hb))]
          cases body with
          | nil => exact absurd rfl hne
          | cons b ts =>
            have hbd : isDigit b = true := hdig b (List.mem_cons_self b ts)
            rw [isDigit_iff] at hbd
            rw [parseI64, if_neg (by omega), if_neg (by simp only [M_DASH_eq]; omega),
              parseI64_digits _ (by simp) hdig, if_pos (by omega)]
        · obtain ⟨hh, ht, hdig, hzero, hbound⟩ := hc
          cases body with
          | nil => exact absurd hh (by simp)
          | cons b ts =>
            simp only [List.head?_cons, Option.some.injEq] at hh
            subst hh
            simp only [List.tail_cons] at ht hdig hzero hbound
            refine ⟨-(digitsToNat ts : Int), ?_, by simp, ?_, by simp⟩
            · rw [ascii_bytes_to_int, if_pos, parseI64,
                if_neg (by simp only [M_DASH_eq]; omega), if_pos rfl,
                parseI64_digits_neg ts ht hdig, if_pos hbound]
              refine validUtf8_of_ascii _ fun x hx => ?_
              rcases List.mem_cons.mp hx with hx | hx
              · subst hx; norm_num
              · exact isDigit_ascii x (hdig x hx)
            · rw [dashZeroFree_cons]
              exact ⟨fun hcc => hzero hcc.2, dashZeroFree_of_digits ts hdig⟩
      · obtain ⟨hh, ht, hdig, hbound⟩ := hc
        cases body with
        | nil => exact absurd hh (by simp)
        | cons b ts =>
          simp only [List.head?_cons, Option.some.injEq] at hh
          subst hh
          simp only [List.tail_cons] at ht hdig hbound
          refine ⟨(digitsToNat ts : Int), ?_, by simp, ?_, by simp⟩
          · rw [ascii_bytes_to_int, if_pos, parseI64, if_pos rfl,
              parseI64_digits ts ht hdig, if_pos (by omega)]
            refine validUtf8_of_ascii _ fun x hx => ?_
            rcases List.mem_cons.mp hx with hx | hx
            · subst hx; norm_num
            · exact isDigit_ascii x (hdig x hx)
          · rw [dashZeroFree_cons]
            refine ⟨fun hcc => ?_, dashZeroFree_of_digits ts hdig⟩
            have := hcc.1
            simp only [M_DASH_eq] at this
            omega
    obtain ⟨ival, ha, hz, hdzf, hne⟩ := hascii
    have hloop := read_int_loop_run body [] hnoe (fun _ => hz) hdzf (Or.inr hne)
    rw [List.nil_append, ha] at hloop
    exact ⟨.Int ival, by rw [hdec _ hloop]⟩

/-- C7 (witness): the amended statement evaluated at body = "5". -/
theorem c7_witness :
    c.M_END ∉ [0x35] ∧
    ((∃ v, decode (c.M_INT :: [0x35] ++ [c.M_END]) = .ok v) ↔
      (intBodyClaimed [0x35] ∨ intBodyPlus [0x35])) :=
  ⟨by decide, c7_int_body_iff [0x35] (by decide)⟩

/-- C8 (counterexample): for n = 2^63 (one above the i64 maximum, decimal
digits with no leading zeros) the claim demands `Integer(n)`, but the code
fails with `IntParseInt` (`MalformedInteger`), because the digit span does
not parse as an i64. -/
theorem c8_cex_overflowing_integer :
    decode (c.M_INT :: natToDecBytes (2 ^ 63) ++ [c.M_END]) = .error .IntParseInt ∧
    (Except.error BencodeError.IntParseInt ≠
      (Except.ok (BencodeItem.Int ((2 : Int) ^ 63)) : Except BencodeError BencodeItem)) :=
  ⟨rfl, by simp⟩

/-- C8 (amended): for every non-negative integer n that fits in an i64
(`n < 2^63`), decoding `i` ++ decimal(n) ++ `e` (decimal digits have no
leading zeros) returns `Integer(n)`. -/
theorem c8_decimal_integers (n : Nat) (h : n < 2 ^ 63) :
    decode (c.M_INT :: natToDecBytes n ++ [c.M_END]) = .ok (.Int ((n : Nat) : Int)) := by
  rw [decode_eq]
  generalize 3 * (c.M_INT :: natToDecBytes n ++ [c.M_END]).length + 2 = f
  rw [List.cons_append, parse_bytes_int, ← List.cons_append]
  have hri : read_int (c.M_INT :: natToDecBytes n ++ [c.M_END]) = .ok (((n : Nat) : Int), []) := by
    rw [read_int, List.cons_append, List.tail_cons,
      show (natToDecBytes n ++ [c.M_END] : List Nat) = natToDecBytes n ++ c.M_END :: [] from rfl]
    exact read_int_loop_nat n h []
  rw [hri]
  rfl

/-- C8 (witness): the amended statement evaluated at n = 42. -/
theorem c8_witness :
    (42 : Nat) < 2 ^ 63 ∧
    decode (c.M_INT :: natToDecBytes 42 ++ [c.M_END]) = .ok (.Int ((42 : Nat) : Int)) :=
  ⟨by norm_num, c8_decimal_integers 42 (by norm_num)⟩

/-- C9: encoding an integer is total (as_bytes is a total function) and
produces exactly `i` ++ signed decimal ++ `e`: the digits of |n| with no
leading zero (a digit 0 in front only for n = 0 itself), a minus sign
exactly when n is strictly negative, and never the form "-0" (a negative
value never renders the single digit 0). -/
theorem c9_encode_int_canonical (i : Int) (h1 : -(2 ^ 63) ≤ i) (h2 : i < 2 ^ 63) :
    as_bytes (.Int i) = c.M_INT :: intToDecBytes i ++ [c.M_END] ∧
    (i < 0 → intToDecBytes i = c.M_DASH :: natToDecBytes i.natAbs) ∧
    (0 ≤ i → intToDecBytes i = natToDecBytes i.natAbs) ∧
    (∀ b ∈ natToDecBytes i.natAbs, isDigit b = true) ∧
    ((natToDecBytes i.natAbs).head? = some c.M_0 → i = 0) ∧
    (i < 0 → natToDecBytes i.natAbs ≠ [c.M_0]) := by
  refine ⟨by simp [as_bytes, encode_int], fun hn => by rw [intToDecBytes, if_pos hn],
    fun hn => by rw [intToDecBytes, if_neg (by omega)], natToDecBytes_digits _,
    fun hh => ?_, fun hn hz => ?_⟩
  · have := (natToDecBytes_head i.natAbs c.M_0 hh).2.2 rfl
    omega
  · have : (natToDecBytes i.natAbs).head? = some c.M_0 := by rw [hz]; rfl
    have := (natToDecBytes_head i.natAbs c.M_0 this).2.2 rfl
    omega

/-- C9 (witness): the statement evaluated at i = -7. -/
theorem c9_witness :
    (-(2 ^ 63) ≤ (-7 : Int) ∧ (-7 : Int) < 2 ^ 63) ∧
    (as_bytes (.Int (-7)) = c.M_INT :: intToDecBytes (-7) ++ [c.M_END] ∧
      ((-7 : Int) < 0 → intToDecBytes (-7) = c.M_DASH :: natToDecBytes (Int.natAbs (-7))) ∧
      (0 ≤ (-7 : Int) → intToDecBytes (-7) = natToDecBytes (Int.natAbs (-7))) ∧
      (∀ b ∈ natToDecBytes (Int.natAbs (-7)), isDigit b = true) ∧
      ((natToDecBytes (Int.natAbs (-7))).head? = some c.M_0 → (-7 : Int) = 0) ∧
      ((-7 : Int) < 0 → natToDecBytes (Int.natAbs (-7)) ≠ [c.M_0])) :=
  ⟨⟨by norm_num, by norm_num⟩, c9_encode_int_canonical (-7) (by norm_num) (by norm_num)⟩

end Mescal
